import Mathlib

/-!
# Verification of the logjuicer `ChunkProcessor` (crates/model/src/process.rs)

This file gives a shallow embedding of the streaming anomaly detector of
`crates/model/src/process.rs` and proves properties of it.

Modelling conventions:

* Raw line content is a type parameter `α` (in the source it is a byte
  string; nothing in the processor inspects it except through the
  tokenizer, the marker check `raw_str.contains("TASK [run-logjuicer")`
  and the byte length, all of which are abstracted as functions on `α`).
  Theorems about concrete runs instantiate `α` with `String` or with
  `Nat` (line contents numbered by stream position, so that reuse of a
  source line is visible).
* `LogLine` is `α × Nat` (content, line number), as produced by
  `BytesLines`.
* The similarity index (`IndexReader.distance`) returns one scalar per
  input in the same order; it is modelled as a pointwise function
  `idx : String → ℚ` applied with `List.map`.  Distances are `ℚ`
  (the source uses `f32`; the threshold comparison is order-only).
* `KnownLines` is a set of tokenized strings, modelled as a `List String`
  with first-insertion detection.
* UTF-8 decode errors and upstream I/O errors are out of scope of the
  claims treated here; lines are already decoded values of `α`.
-/

set_option autoImplicit false

namespace Logjuicer

/-- `THRESHOLD : F = 0.3` from process.rs (`mkRat` is used instead of
`3 / 10` so that the constant evaluates inside the kernel; the two are
equal, see `THRESHOLD_eq`). -/
def THRESHOLD : ℚ := mkRat 3 10

/-- `CTX_DISTANCE : usize = 3` from process.rs. -/
def CTX_DISTANCE : Nat := 3

/-- `CHUNK_SIZE : usize = 512` from process.rs. -/
def CHUNK_SIZE : Nat := 512

/-- `Anomaly { distance, pos, line }` from logjuicer-report. -/
structure Anomaly (α : Type) where
  distance : ℚ
  pos : Nat
  line : α
deriving DecidableEq, Repr

/-- `AnomalyContext { before, anomaly, after }` from logjuicer-report. -/
structure AnomalyContext (α : Type) where
  before : List α
  anomaly : Anomaly α
  after : List α
deriving DecidableEq, Repr

/-- The environment of a `ChunkProcessor`: the tokenizer, the trained
index (`IndexReader.distance` applied pointwise), the self-exclusion
marker test (`raw_str.contains("TASK [run-logjuicer")`) and the byte
length of a raw line. -/
structure Params (α : Type) where
  tok : α → String
  idx : String → ℚ
  marker : α → Bool
  blen : α → Nat

/-- `Vec::rotate_right(n)`: the last `n` elements move to the front
(for `n ≤ l.length`). -/
def rotateRight {α : Type} (l : List α) (n : Nat) : List α :=
  l.drop (l.length - n) ++ l.take (l.length - n)

/-- `collect_before` from process.rs: build the before context from the
buffer and the left overs. -/
def collect_before {α : Type} (buffer_pos last_context_pos : Nat)
    (buffer : List ((α × Nat) × Nat)) (left_overs : List α) : List α :=
  let min_pos := if buffer_pos < CTX_DISTANCE then 0 else buffer_pos - CTX_DISTANCE
  let before_context_pos := max last_context_pos min_pos
  let before := ((buffer.drop before_context_pos).take (buffer_pos - before_context_pos)).map
    (fun e => e.1.1)
  if before_context_pos = 0 ∧ before.length < CTX_DISTANCE then
    let need := CTX_DISTANCE - before.length
    let available := left_overs.length
    let want := min need available
    let before_extra := left_overs.drop (available - want)
    rotateRight (before ++ before_extra) want
  else
    before

/-- The `ChunkProcessor` state from process.rs.  The `reader` field holds
the not-yet-consumed lines of the underlying `BytesLines` iterator. -/
structure ChunkProcessor (α : Type) where
  reader : List (α × Nat)
  buffer : List ((α × Nat) × Nat)
  targets : List String
  targets_coord : List Nat
  left_overs : List α
  current_anomaly : Option (AnomalyContext α)
  anomalies : List (AnomalyContext α)
  skip_lines : List String
  coord : Nat
  line_count : Nat
  byte_count : Nat
  is_job_output : Bool
deriving DecidableEq, Repr

namespace ChunkProcessor

/-- `ChunkProcessor::new`: the caller supplies the reader, the
`is_job_output` flag and the (possibly pre-populated, shared)
`KnownLines` set. -/
def new {α : Type} (reader : List (α × Nat)) (is_job_output : Bool)
    (skip0 : List String) : ChunkProcessor α :=
  { reader := reader, buffer := [], targets := [], targets_coord := [],
    left_overs := [], current_anomaly := none, anomalies := [],
    skip_lines := skip0, coord := 0, line_count := 0, byte_count := 0,
    is_job_output := is_job_output }

/-- `ChunkProcessor::reset`: clear targets, keep the buffer tail as
left overs, clear the buffer. -/
def reset {α : Type} (s : ChunkProcessor α) (left_overs_pos : Nat) : ChunkProcessor α :=
  let min_left_overs_pos :=
    if s.buffer.length < CTX_DISTANCE then 0 else s.buffer.length - CTX_DISTANCE
  let max_left_overs_pos := max left_overs_pos min_left_overs_pos
  { s with targets := [], targets_coord := [],
           left_overs := (s.buffer.drop max_left_overs_pos).map (fun e => e.1.1),
           buffer := [] }

end ChunkProcessor

/-- The local mutable variables of `do_search_anomalies`:
`buffer_pos`, `last_context_pos`, and the shared `current_anomaly` and
`anomalies` fields that the search walk mutates. -/
structure SearchAcc (α : Type) where
  buffer_pos : Nat
  last_context_pos : Nat
  current_anomaly : Option (AnomalyContext α)
  anomalies : List (AnomalyContext α)
deriving DecidableEq, Repr

/-- One non-target step of the inner loop of `do_search_anomalies`
(process.rs lines 217-229): advance `buffer_pos` and, when an anomaly
is open, add the raw line to its after context, completing it when the
context reaches `CTX_DISTANCE`, and record `last_context_pos`. -/
def absorb {α : Type} (acc : SearchAcc α) (b : α) : SearchAcc α :=
  match acc.current_anomaly with
  | some a =>
    let a' := { a with after := a.after ++ [b] }
    if CTX_DISTANCE ≤ a'.after.length then
      ⟨acc.buffer_pos + 1, acc.buffer_pos + 1, none, acc.anomalies ++ [a']⟩
    else
      ⟨acc.buffer_pos + 1, acc.buffer_pos + 1, some a', acc.anomalies⟩
  | none => { acc with buffer_pos := acc.buffer_pos + 1 }

/-- The inner loop of `do_search_anomalies` (process.rs lines 209-233):
walk the buffer slice starting at `buffer_pos` looking for the entry
whose coord equals the target coord, feeding skipped lines to the open
anomaly's after context.  Returns the accumulator and, when the target
was found and is an anomaly, its raw line and line number. -/
def searchWalk {α : Type} (is_anomaly : Bool) (c : Nat) :
    List ((α × Nat) × Nat) → SearchAcc α → SearchAcc α × Option (α × Nat)
  | [], acc => (acc, none)
  | ((b, ln), lc) :: rest, acc =>
    if lc = c then
      if is_anomaly then
        ({ acc with buffer_pos := acc.buffer_pos + 1 }, some (b, ln))
      else
        (absorb acc b, none)
    else
      searchWalk is_anomaly c rest (absorb acc b)

/-- One iteration of the outer loop of `do_search_anomalies`
(process.rs lines 202-267), handling one `(distance, coord)` pair.
When the target is found in the buffer and is an anomaly, the open
anomaly is flushed and a new one is opened with its before context.
The source panics when an anomalous coord is absent from the buffer;
reachable states never hit that branch, and the model leaves the
accumulator unchanged there. -/
def searchTarget {α : Type} (buffer : List ((α × Nat) × Nat)) (left_overs : List α)
    (acc : SearchAcc α) (d : ℚ) (c : Nat) : SearchAcc α :=
  let is_anomaly := THRESHOLD < d
  let r := searchWalk is_anomaly c (buffer.drop acc.buffer_pos) acc
  match r.2 with
  | some t =>
    let flushed := match r.1.current_anomaly with
      | some a => r.1.anomalies ++ [a]
      | none => r.1.anomalies
    let before := collect_before (r.1.buffer_pos - 1) r.1.last_context_pos buffer left_overs
    ⟨r.1.buffer_pos, r.1.buffer_pos,
      some ⟨before, ⟨d, t.2, t.1⟩, []⟩, flushed⟩
  | none => r.1

/-- The tail sweep of `do_search_anomalies` (process.rs lines 270-283):
feed the remaining buffer lines to the open anomaly's after context.
Note that the source does not update `last_context_pos` here. -/
def tailSweep {α : Type} :
    List ((α × Nat) × Nat) → AnomalyContext α → List (AnomalyContext α) →
      Option (AnomalyContext α) × List (AnomalyContext α)
  | [], a, anoms => (some a, anoms)
  | ((b, _), _) :: rest, a, anoms =>
    let a' := { a with after := a.after ++ [b] }
    if CTX_DISTANCE ≤ a'.after.length then
      (none, anoms ++ [a'])
    else
      tailSweep rest a' anoms

namespace ChunkProcessor

/-- `ChunkProcessor::do_search_anomalies` from process.rs. -/
def do_search_anomalies {α : Type} (P : Params α) (s : ChunkProcessor α) :
    ChunkProcessor α :=
  let distances := s.targets.map P.idx
  let acc := (distances.zip s.targets_coord).foldl
    (fun acc dc => searchTarget s.buffer s.left_overs acc dc.1 dc.2)
    ⟨0, 0, s.current_anomaly, s.anomalies⟩
  let swept :=
    match acc.current_anomaly with
    | some a =>
      if acc.last_context_pos < s.buffer.length then
        tailSweep (s.buffer.drop acc.last_context_pos) a acc.anomalies
      else (some a, acc.anomalies)
    | none => (none, acc.anomalies)
  reset { s with current_anomaly := swept.1, anomalies := swept.2 }
    acc.last_context_pos

/-- The outcome of one iteration of the read loop of `read_anomalies`:
continue, break out on the self-exclusion marker, or return early
because a search produced deliverable anomalies. -/
inductive ReadStep (α : Type) where
  | cont (s : ChunkProcessor α)
  | brk (s : ChunkProcessor α)
  | emit (s : ChunkProcessor α)

/-- The state carried by a `ReadStep` outcome. -/
def ReadStep.state {α : Type} : ReadStep α → ChunkProcessor α
  | .cont s => s
  | .brk s => s
  | .emit s => s

/-- One iteration of the read loop of `read_anomalies`
(process.rs lines 145-181), processing the line `l` that was just taken
from the reader (the state's `reader` field has already advanced). -/
def stepLine {α : Type} (P : Params α) (l : α × Nat) (s : ChunkProcessor α) :
    ReadStep α :=
  let s1 := { s with line_count := s.line_count + 1,
                     byte_count := s.byte_count + P.blen l.1,
                     coord := s.coord + 1 }
  if s1.is_job_output && P.marker l.1 then .brk s1
  else
    let tokens := P.tok l.1
    let s2 := { s1 with buffer := s1.buffer ++ [(l, s1.coord)] }
    if tokens ∈ s2.skip_lines then
      if CHUNK_SIZE * 10 < s2.buffer.length then
        let s3 := do_search_anomalies P s2
        if s3.anomalies.isEmpty then .cont s3 else .emit s3
      else .cont s2
    else
      let s3 := { s2 with skip_lines := tokens :: s2.skip_lines,
                          targets := s2.targets ++ [tokens],
                          targets_coord := s2.targets_coord ++ [s2.coord] }
      if s3.targets.length = CHUNK_SIZE then
        let s4 := do_search_anomalies P s3
        if s4.anomalies.isEmpty then .cont s4 else .emit s4
      else .cont s3

/-- The end-of-stream block of `read_anomalies`
(process.rs lines 183-192): search the partial chunk and flush the
still-open anomaly. -/
def read_eof {α : Type} (P : Params α) (s : ChunkProcessor α) : ChunkProcessor α :=
  let s1 := if s.targets.isEmpty then s else do_search_anomalies P s
  match s1.current_anomaly with
  | some a => { s1 with anomalies := s1.anomalies ++ [a], current_anomaly := none }
  | none => s1

/-- The read loop of `read_anomalies`, consuming the given reader lines
(kept in lockstep with the state's `reader` field). -/
def read_loop {α : Type} (P : Params α) :
    List (α × Nat) → ChunkProcessor α → ChunkProcessor α
  | [], s => read_eof P s
  | l :: rest, s =>
    match stepLine P l { s with reader := rest } with
    | .cont s' => read_loop P rest s'
    | .brk s' => read_eof P s'
    | .emit s' => s'

/-- `ChunkProcessor::read_anomalies` from process.rs. -/
def read_anomalies {α : Type} (P : Params α) (s : ChunkProcessor α) :
    ChunkProcessor α :=
  read_loop P s.reader s

/-- `ChunkProcessor::next` (the `Iterator` implementation): deliver the
front of the anomalies queue, reading more of the stream when the queue
is empty.  Returns the emitted item (if any) together with the mutated
state. -/
def nextFull {α : Type} (P : Params α) (s : ChunkProcessor α) :
    Option (AnomalyContext α) × ChunkProcessor α :=
  match s.anomalies with
  | a :: rest => (some a, { s with anomalies := rest })
  | [] =>
    let s' := read_anomalies P s
    match s'.anomalies with
    | [] => (none, s')
    | a :: rest => (some a, { s' with anomalies := rest })

/-- The first `n` items emitted by iterating `ChunkProcessor::next`. -/
def emitN {α : Type} (P : Params α) : Nat → ChunkProcessor α → List (AnomalyContext α)
  | 0, _ => []
  | n + 1, s =>
    match nextFull P s with
    | (none, _) => []
    | (some a, s') => a :: emitN P n s'

/-- One observable transition of the processor: processing one reader
line, popping an emitted anomaly, or running the end-of-stream block. -/
inductive Step {α : Type} (P : Params α) :
    ChunkProcessor α → ChunkProcessor α → Prop where
  | line (s : ChunkProcessor α) (l : α × Nat) (rest : List (α × Nat)) :
      s.reader = l :: rest →
      Step P s (stepLine P l { s with reader := rest }).state
  | pop (s : ChunkProcessor α) (a : AnomalyContext α) (rest : List (AnomalyContext α)) :
      s.anomalies = a :: rest → Step P s { s with anomalies := rest }
  | flush (s : ChunkProcessor α) : Step P s (read_eof P s)

/-- Reachability under processor transitions. -/
def Reach {α : Type} (P : Params α) :
    ChunkProcessor α → ChunkProcessor α → Prop :=
  Relation.ReflTransGen (Step P)

/-- Run the read loop for `k` lines (a harness for reaching the state
after each processed line; each step is a `Step.line` transition). -/
def consume {α : Type} (P : Params α) : Nat → ChunkProcessor α → ChunkProcessor α
  | 0, s => s
  | k + 1, s =>
    match s.reader with
    | [] => s
    | l :: rest => consume P k (stepLine P l { s with reader := rest }).state

end ChunkProcessor

/-- Tag a list of log lines with consecutive coords starting at `c + 1`,
as the read loop pushes them onto the buffer. -/
def tagFrom {α : Type} (c : Nat) : List (α × Nat) → List ((α × Nat) × Nat)
  | [] => []
  | l :: ls => (l, c + 1) :: tagFrom (c + 1) ls

/-- The memory bounds maintained after every processed line (the
inductive strengthening behind the amended C4). -/
def MemBounds {α : Type} (s : ChunkProcessor α) : Prop :=
  s.buffer.length ≤ CHUNK_SIZE * 10 + s.targets.length ∧
    s.targets.length + 1 ≤ CHUNK_SIZE ∧
    s.left_overs.length ≤ CTX_DISTANCE

/-- The accumulated effect of the non-target steps of the search walk:
fold `absorb` over the raw lines of the skipped buffer entries. -/
def absorbAll {α : Type} (acc : SearchAcc α) (raws : List α) : SearchAcc α :=
  raws.foldl absorb acc

/-- A per-anomaly property holds for an anomaly: its distance is the
index distance of its tokenized line and lies above the threshold
(the property behind claim C7). -/
def GoodA {α : Type} (P : Params α) (a : Anomaly α) : Prop :=
  a.distance = P.idx (P.tok a.line) ∧ THRESHOLD < a.distance

/-! ## Concrete runs used by individual claims -/
/-- The five-line buffer of the leftovers-arithmetic scenario (S1). -/
def bufS1 : List ((String × Nat) × Nat) :=
  [(("line0", 0), 0), (("line1", 1), 1), (("line2", 2), 2),
   (("line3", 3), 3), (("line4", 4), 4)]

/-- A state holding `bufS1`, used to exercise `reset`. -/
def stateS1 : ChunkProcessor String :=
  { ChunkProcessor.new [] false [] with buffer := bufS1 }

/-- Environment for the C3 counterexample run: `x` is an anomaly,
everything else matches the baseline. -/
def PC3 : Params String :=
  ⟨id, fun t => if t = "x" then 1 else 0, fun _ => false, fun _ => 0⟩

/-- Input for the C3 counterexample run: an anomalous line followed by a
unique baseline-matching line. -/
def dataC3 : List (String × Nat) := [("x", 1), ("a", 2)]

/-- Environment for the C8 failing run: `X` and `Y` are anomalies, the
marker predicate models `contains("TASK [run-logjuicer")`. -/
def PC8 : Params String :=
  ⟨id, fun t => if t = "X" ∨ t = "Y" then 1 else 0,
   fun s => s = "TASK [run-logjuicer : test]", fun _ => 0⟩

/-- Input for the C8 failing run: an anomaly, the self-exclusion marker,
then another anomaly. -/
def dataC8 : List (String × Nat) :=
  [("X", 1), ("TASK [run-logjuicer : test]", 2), ("Y", 3)]

/-- Environment for the C6 failing run. -/
def PC6 : Params String :=
  ⟨id, fun t => if t = "X" ∨ t = "Y" then 1 else 0,
   fun s => s = "TASK [run-logjuicer : test]", fun _ => 0⟩

/-- Input for the C6 failing run: an anomaly with four following unique
baseline lines, the marker, then another anomaly. -/
def dataC6 : List (String × Nat) :=
  [("X", 1), ("p", 2), ("q", 3), ("r", 4), ("s", 5),
   ("TASK [run-logjuicer : test]", 6), ("Y", 7)]

/-- Environment for the C1 failing run.  Raw line content is the line's
stream coord, so reuse of a source line is visible; line 2 tokenizes to
the anomalous `X`, line 5 to the anomalous `Y`, all others to the
baseline token `A`; line 4 is the self-exclusion marker. -/
def PC1 : Params Nat :=
  ⟨fun n => if n = 2 then "X" else if n = 5 then "Y" else "A",
   fun t => if t = "A" then 0 else 1, fun n => n = 4, fun _ => 0⟩

/-- Input for the C1 failing run: baseline line, anomaly, duplicate
baseline line, marker, anomaly. -/
def dataC1 : List (Nat × Nat) := [(1, 1), (2, 2), (3, 3), (4, 4), (5, 5)]

/-! ## The distance invariant (C7) -/
/-- The state invariant behind C7: every queued or open anomaly's
distance is the index distance of its tokenized line and exceeds the
threshold, and the chunk accumulator is aligned with the buffer: each
`(distance, coord)` pair corresponds to a buffer entry with that coord
whose tokenized line has that distance, buffer coords are strictly
increasing, and all of them are at most the current coord counter. -/
structure DistInv {α : Type} (P : Params α) (s : ChunkProcessor α) : Prop where
  queue : ∀ a ∈ s.anomalies, GoodA P a.anomaly
  cur : ∀ cu, s.current_anomaly = some cu → GoodA P cu.anomaly
  lens : s.targets.length = s.targets_coord.length
  align : ∀ dc ∈ (s.targets.map P.idx).zip s.targets_coord,
    ∃ e ∈ s.buffer, e.2 = dc.2 ∧ P.idx (P.tok e.1.1) = dc.1
  coords : List.Pairwise (fun e1 e2 : (α × Nat) × Nat => e1.2 < e2.2) s.buffer
  bound : ∀ e ∈ s.buffer, e.2 ≤ s.coord

/-- Trivial environment used by witnesses. -/
def PTriv : Params String := ⟨id, fun _ => 0, fun _ => false, fun _ => 0⟩

/-- Environment for the C4 counterexample run: every line matches the
baseline. -/
def PC4 : Params String := ⟨id, fun _ => 0, fun _ => false, fun _ => 0⟩

/-- Input for the C4 counterexample run: `CHUNK_SIZE * 10` copies of a
known line followed by one fresh line. -/
def dataC4 : List (String × Nat) :=
  List.replicate (CHUNK_SIZE * 10) ("a", 0) ++ [("b", 0)]

/-- Initial state of the C4 counterexample run: the caller-provided
`KnownLines` set already contains the duplicate line's tokens (the set
is shared across the files of a job). -/
def sC4 : ChunkProcessor String := ChunkProcessor.new dataC4 false ["a"]

/-- The accumulator used by the C3 amended witness: an anomaly is open. -/
def accC3 : SearchAcc String := ⟨0, 0, some ⟨[], ⟨1, 1, "x"⟩, []⟩, []⟩

/-- The open anomaly of `accC3`. -/
def anomC3 : AnomalyContext String := ⟨[], ⟨1, 1, "x"⟩, []⟩

/-! ## The position-ordering invariant (C2) -/
/-- The search-walk invariant behind C2, relative to the remaining
buffer slice `S`: queued anomalies are in strictly increasing `pos`
order, all below the open anomaly's `pos`, and all queue and open
positions are below the line numbers of the remaining slice. -/
structure SPInv {α : Type} (S : List ((α × Nat) × Nat)) (acc : SearchAcc α) : Prop where
  queue : List.Pairwise (fun a b : AnomalyContext α =>
    a.anomaly.pos < b.anomaly.pos) acc.anomalies
  qcur : ∀ a ∈ acc.anomalies, ∀ cu, acc.current_anomaly = some cu →
    a.anomaly.pos < cu.anomaly.pos
  qbuf : ∀ a ∈ acc.anomalies, ∀ e ∈ S, a.anomaly.pos < e.1.2
  cbuf : ∀ cu, acc.current_anomaly = some cu → ∀ e ∈ S, cu.anomaly.pos < e.1.2

/-- The state invariant behind C2: queue ordering, the open anomaly
above the queue, all of them below every buffered and unread line
number, buffered line numbers strictly increasing and below the unread
ones, which are themselves strictly increasing. -/
structure PosInv {α : Type} (s : ChunkProcessor α) : Prop where
  queue : List.Pairwise (fun a b : AnomalyContext α =>
    a.anomaly.pos < b.anomaly.pos) s.anomalies
  qcur : ∀ a ∈ s.anomalies, ∀ cu, s.current_anomaly = some cu →
    a.anomaly.pos < cu.anomaly.pos
  qbuf : ∀ a ∈ s.anomalies, ∀ e ∈ s.buffer, a.anomaly.pos < e.1.2
  cbuf : ∀ cu, s.current_anomaly = some cu → ∀ e ∈ s.buffer, cu.anomaly.pos < e.1.2
  qrd : ∀ a ∈ s.anomalies, ∀ r ∈ s.reader, a.anomaly.pos < r.2
  crd : ∀ cu, s.current_anomaly = some cu → ∀ r ∈ s.reader, cu.anomaly.pos < r.2
  bufsort : List.Pairwise (fun e1 e2 : (α × Nat) × Nat => e1.1.2 < e2.1.2) s.buffer
  bufrd : ∀ e ∈ s.buffer, ∀ r ∈ s.reader, e.1.2 < r.2
  rdsort : List.Pairwise (fun x y : α × Nat => x.2 < y.2) s.reader

/-- A strict lower bound on every position source of a state: the
emitted anomaly's `pos` is below everything that can still be
emitted. -/
structure PosLB {α : Type} (p : Nat) (s : ChunkProcessor α) : Prop where
  queue : ∀ a ∈ s.anomalies, p < a.anomaly.pos
  cur : ∀ cu, s.current_anomaly = some cu → p < cu.anomaly.pos
  buf : ∀ e ∈ s.buffer, p < e.1.2
  rd : ∀ r ∈ s.reader, p < r.2

/-- `THRESHOLD` is the rational number `3 / 10 = 0.3`. -/
theorem THRESHOLD_eq : THRESHOLD = 3 / 10 := by
  norm_num [THRESHOLD]

namespace ChunkProcessor

/-! ## Basic lemmas about the search phase and reset -/
theorem reset_targets {α : Type} (s : ChunkProcessor α) (n : Nat) :
    (s.reset n).targets = [] := rfl

theorem reset_targets_coord {α : Type} (s : ChunkProcessor α) (n : Nat) :
    (s.reset n).targets_coord = [] := rfl

theorem reset_buffer {α : Type} (s : ChunkProcessor α) (n : Nat) :
    (s.reset n).buffer = [] := rfl

theorem reset_reader {α : Type} (s : ChunkProcessor α) (n : Nat) :
    (s.reset n).reader = s.reader := rfl

theorem do_search_targets {α : Type} (P : Params α) (s : ChunkProcessor α) :
    (s.do_search_anomalies P).targets = [] := rfl

theorem do_search_targets_coord {α : Type} (P : Params α) (s : ChunkProcessor α) :
    (s.do_search_anomalies P).targets_coord = [] := rfl

theorem do_search_buffer {α : Type} (P : Params α) (s : ChunkProcessor α) :
    (s.do_search_anomalies P).buffer = [] := rfl

theorem do_search_reader {α : Type} (P : Params α) (s : ChunkProcessor α) :
    (s.do_search_anomalies P).reader = s.reader := rfl

end ChunkProcessor

/-! ## Lemmas about the read loop harness -/
theorem tagFrom_length {α : Type} (c : Nat) (ls : List (α × Nat)) :
    (tagFrom c ls).length = ls.length := by
  induction ls generalizing c with
  | nil => rfl
  | cons l ls ih => simp [tagFrom, ih]

namespace ChunkProcessor

theorem consume_reader_nil {α : Type} (P : Params α) (k : Nat)
    (s : ChunkProcessor α) (h : s.reader = []) : consume P k s = s := by
  cases k with
  | zero => rfl
  | succ k => rw [consume, h]

theorem consume_add {α : Type} (P : Params α) (m n : Nat) :
    ∀ s : ChunkProcessor α, consume P (m + n) s = consume P n (consume P m s) := by
  induction m with
  | zero => intro s; rw [Nat.zero_add]; rfl
  | succ m ih =>
    intro s
    have hmn : m + 1 + n = (m + n) + 1 := by omega
    rw [hmn, consume, consume]
    cases hr : s.reader with
    | nil =>
      exact (consume_reader_nil P n s hr).symm
    | cons l rest =>
      exact ih _

theorem reach_consume {α : Type} (P : Params α) (k : Nat) (s : ChunkProcessor α) :
    Reach P s (consume P k s) := by
  induction k generalizing s with
  | zero => exact Relation.ReflTransGen.refl
  | succ k ih =>
    rw [consume]
    cases hr : s.reader with
    | nil => exact Relation.ReflTransGen.refl
    | cons l rest =>
      exact Relation.ReflTransGen.head (Step.line s l rest hr) (ih _)

/-- Processing a line whose tokens are already known, while the buffer
stays within the `CHUNK_SIZE * 10` bound, just appends to the buffer. -/
theorem stepLine_dup {α : Type} (P : Params α) (l : α × Nat) (s : ChunkProcessor α)
    (hjob : s.is_job_output = false)
    (htk : P.tok l.1 ∈ s.skip_lines)
    (hlen : s.buffer.length + 1 ≤ CHUNK_SIZE * 10) :
    stepLine P l s = .cont
      { s with buffer := s.buffer ++ [(l, s.coord + 1)],
               coord := s.coord + 1,
               line_count := s.line_count + 1,
               byte_count := s.byte_count + P.blen l.1 } := by
  unfold stepLine
  simp only [hjob, Bool.false_and, Bool.false_eq_true, if_false]
  rw [if_pos htk]
  rw [if_neg (by simp only [List.length_append, List.length_cons, List.length_nil]; omega :
    ¬CHUNK_SIZE * 10 < (s.buffer ++ [(l, s.coord + 1)]).length)]

/-- Processing a line with fresh tokens, while the chunk stays below
`CHUNK_SIZE` targets, appends to the buffer, the targets and the known
lines. -/
theorem stepLine_unique {α : Type} (P : Params α) (l : α × Nat) (s : ChunkProcessor α)
    (hjob : s.is_job_output = false)
    (htk : P.tok l.1 ∉ s.skip_lines)
    (hlen : s.targets.length + 1 ≠ CHUNK_SIZE) :
    stepLine P l s = .cont
      { s with buffer := s.buffer ++ [(l, s.coord + 1)],
               skip_lines := P.tok l.1 :: s.skip_lines,
               targets := s.targets ++ [P.tok l.1],
               targets_coord := s.targets_coord ++ [s.coord + 1],
               coord := s.coord + 1,
               line_count := s.line_count + 1,
               byte_count := s.byte_count + P.blen l.1 } := by
  unfold stepLine
  simp only [hjob, Bool.false_and, Bool.false_eq_true, if_false]
  rw [if_neg htk]
  rw [if_neg (by simp only [List.length_append, List.length_cons, List.length_nil]; omega :
    ¬(s.targets ++ [P.tok l.1]).length = CHUNK_SIZE)]

/-- Consuming a block of already-known lines (under the buffer bound)
appends the tagged block to the buffer and advances the counters. -/
theorem consume_dups {α : Type} (P : Params α) (ls : List (α × Nat)) :
    ∀ (rest : List (α × Nat)) (s : ChunkProcessor α),
      s.is_job_output = false →
      (∀ l ∈ ls, P.tok l.1 ∈ s.skip_lines) →
      s.buffer.length + ls.length ≤ CHUNK_SIZE * 10 →
      s.reader = ls ++ rest →
      consume P ls.length s =
        { s with reader := rest,
                 buffer := s.buffer ++ tagFrom s.coord ls,
                 coord := s.coord + ls.length,
                 line_count := s.line_count + ls.length,
                 byte_count := s.byte_count + (ls.map (fun l => P.blen l.1)).sum } := by
  induction ls with
  | nil =>
    intro rest s hjob htk hb hr
    simp only [List.nil_append] at hr
    simp only [List.length_nil, tagFrom, List.append_nil, Nat.add_zero,
      List.map_nil, List.sum_nil]
    cases s
    simp_all [consume]
  | cons l ls ih =>
    intro rest s hjob htk hb hr
    have hr' : s.reader = l :: (ls ++ rest) := by simpa using hr
    have hstep := stepLine_dup P l { s with reader := ls ++ rest }
      (by simpa using hjob) (by simpa using htk l (by simp))
      (by simp only [List.length_cons] at hb; simpa using (by omega : s.buffer.length + 1 ≤ CHUNK_SIZE * 10))
    rw [show (l :: ls).length = ls.length + 1 from rfl, consume, hr']
    dsimp only
    rw [hstep]
    dsimp only [ReadStep.state]
    rw [ih rest _ (by simp [hjob]) (by intro x hx; simpa using htk x (by simp [hx]))
      (by simp only [List.length_append, List.length_cons, List.length_nil,
            List.length_cons] at hb ⊢; omega)
      (by simp)]
    cases s
    simp only [tagFrom, List.length_cons, List.map_cons, List.sum_cons]
    congr 1 <;> first
      | rfl
      | omega
      | (rw [List.append_assoc]; rfl)

end ChunkProcessor

/-! ## Position bounds of the search walk -/
theorem absorb_buffer_pos {α : Type} (acc : SearchAcc α) (b : α) :
    (absorb acc b).buffer_pos = acc.buffer_pos + 1 := by
  unfold absorb
  cases acc.current_anomaly with
  | none => rfl
  | some a => dsimp only; split <;> rfl

theorem absorb_lcp_le {α : Type} (acc : SearchAcc α) (b : α)
    (h : acc.last_context_pos ≤ acc.buffer_pos) :
    (absorb acc b).last_context_pos ≤ acc.buffer_pos + 1 := by
  unfold absorb
  cases acc.current_anomaly with
  | none => exact Nat.le_succ_of_le h
  | some a => dsimp only; split <;> exact Nat.le_refl _

theorem searchWalk_nil {α : Type} (ia : Bool) (c : Nat) (acc : SearchAcc α) :
    searchWalk ia c [] acc = (acc, none) := rfl

theorem searchWalk_cons_found_anom {α : Type} (c : Nat) (b : α) (ln lc : Nat)
    (rest : List ((α × Nat) × Nat)) (acc : SearchAcc α) (h : lc = c) :
    searchWalk true c (((b, ln), lc) :: rest) acc =
      ({ acc with buffer_pos := acc.buffer_pos + 1 }, some (b, ln)) := by
  simp [searchWalk, h]

theorem searchWalk_cons_found_nonanom {α : Type} (c : Nat) (b : α) (ln lc : Nat)
    (rest : List ((α × Nat) × Nat)) (acc : SearchAcc α) (h : lc = c) :
    searchWalk false c (((b, ln), lc) :: rest) acc = (absorb acc b, none) := by
  simp [searchWalk, h]

theorem searchWalk_cons_skip {α : Type} (ia : Bool) (c : Nat) (b : α) (ln lc : Nat)
    (rest : List ((α × Nat) × Nat)) (acc : SearchAcc α) (h : ¬lc = c) :
    searchWalk ia c (((b, ln), lc) :: rest) acc =
      searchWalk ia c rest (absorb acc b) := by
  simp [searchWalk, h]

/-- Bounds maintained by the inner search walk: `last_context_pos` stays
at most `buffer_pos`, `buffer_pos` advances by at most the slice length,
and when the target is found `buffer_pos` has advanced at least once and
`last_context_pos` is strictly below it. -/
theorem searchWalk_bounds {α : Type} (ia : Bool) (c : Nat) :
    ∀ (slice : List ((α × Nat) × Nat)) (acc : SearchAcc α),
      acc.last_context_pos ≤ acc.buffer_pos →
      (searchWalk ia c slice acc).1.last_context_pos ≤
          (searchWalk ia c slice acc).1.buffer_pos ∧
        (searchWalk ia c slice acc).1.buffer_pos ≤ acc.buffer_pos + slice.length ∧
        ((searchWalk ia c slice acc).2.isSome = true →
          acc.buffer_pos + 1 ≤ (searchWalk ia c slice acc).1.buffer_pos ∧
            (searchWalk ia c slice acc).1.last_context_pos + 1 ≤
              (searchWalk ia c slice acc).1.buffer_pos)
  | [], acc => by
    intro h
    rw [searchWalk_nil]
    refine ⟨h, Nat.le_refl _, ?_⟩
    intro hsome
    simp at hsome
  | ((b, ln), lc) :: rest, acc => by
    intro h
    by_cases hc : lc = c
    · cases ia with
      | true =>
        rw [searchWalk_cons_found_anom c b ln lc rest acc hc]
        refine ⟨Nat.le_succ_of_le h, by simp, ?_⟩
        intro _
        exact ⟨Nat.le_refl _, Nat.succ_le_succ h⟩
      | false =>
        rw [searchWalk_cons_found_nonanom c b ln lc rest acc hc]
        refine ⟨?_, ?_, ?_⟩
        · rw [absorb_buffer_pos]; exact absorb_lcp_le acc b h
        · rw [absorb_buffer_pos]; simp
        · intro hsome; simp at hsome
    · rw [searchWalk_cons_skip ia c b ln lc rest acc hc]
      have hih := searchWalk_bounds ia c rest (absorb acc b)
        (by rw [absorb_buffer_pos]; exact absorb_lcp_le acc b h)
      rw [absorb_buffer_pos] at hih
      refine ⟨hih.1, ?_, ?_⟩
      · calc (searchWalk ia c rest (absorb acc b)).1.buffer_pos
            ≤ acc.buffer_pos + 1 + rest.length := hih.2.1
          _ = acc.buffer_pos + (((b, ln), lc) :: rest).length := by simp; omega
      · intro hsome
        have h3 := hih.2.2 hsome
        exact ⟨Nat.le_trans (Nat.le_succ _) h3.1, h3.2⟩

/-- One search-target step maintains the accumulator bounds. -/
theorem searchTarget_bounds {α : Type} (buffer : List ((α × Nat) × Nat))
    (left_overs : List α) (acc : SearchAcc α) (d : ℚ) (c : Nat)
    (h1 : acc.last_context_pos ≤ acc.buffer_pos)
    (h2 : acc.buffer_pos ≤ buffer.length) :
    (searchTarget buffer left_overs acc d c).last_context_pos ≤
        (searchTarget buffer left_overs acc d c).buffer_pos ∧
      (searchTarget buffer left_overs acc d c).buffer_pos ≤ buffer.length := by
  have hlen : (buffer.drop acc.buffer_pos).length = buffer.length - acc.buffer_pos :=
    List.length_drop _ _
  have hw := searchWalk_bounds (THRESHOLD < d) c (buffer.drop acc.buffer_pos) acc h1
  have hbp : (searchWalk (THRESHOLD < d) c (buffer.drop acc.buffer_pos) acc).1.buffer_pos ≤
      buffer.length := by
    calc (searchWalk (THRESHOLD < d) c (buffer.drop acc.buffer_pos) acc).1.buffer_pos
        ≤ acc.buffer_pos + (buffer.drop acc.buffer_pos).length := hw.2.1
      _ = buffer.length := by rw [hlen]; omega
  unfold searchTarget
  dsimp only
  cases hr : (searchWalk (decide (THRESHOLD < d)) c (buffer.drop acc.buffer_pos) acc).2 with
  | some t =>
    dsimp only
    constructor
    · exact Nat.le_refl _
    · have := hbp
      simpa [hr] using this
  | none =>
    dsimp only
    constructor
    · exact hw.1
    · exact hbp

/-! ## Decomposition of the search walk -/
theorem absorbAll_nil {α : Type} (acc : SearchAcc α) : absorbAll acc [] = acc := rfl

theorem absorbAll_cons {α : Type} (acc : SearchAcc α) (b : α) (raws : List α) :
    absorbAll acc (b :: raws) = absorbAll (absorb acc b) raws := rfl

/-- When the walk finds an anomalous target, the slice splits into a
prefix of non-matching entries, the found entry (whose stored coord is
the target coord), and a remainder; the returned accumulator is the
absorption of the prefix with `buffer_pos` advanced past the found
entry. -/
theorem searchWalk_found_split {α : Type} (ia : Bool) (c : Nat) :
    ∀ (slice : List ((α × Nat) × Nat)) (acc r : SearchAcc α) (b : α) (ln : Nat),
      searchWalk ia c slice acc = (r, some (b, ln)) →
      ia = true ∧
        ∃ pre rest, slice = pre ++ ((b, ln), c) :: rest ∧
          (∀ e ∈ pre, e.2 ≠ c) ∧
          r = { absorbAll acc (pre.map (fun e => e.1.1)) with
                  buffer_pos :=
                    (absorbAll acc (pre.map (fun e => e.1.1))).buffer_pos + 1 }
  | [], acc, r, b, ln => by
    intro h
    rw [searchWalk_nil] at h
    simp at h
  | ((b', ln'), lc) :: rest, acc, r, b, ln => by
    intro h
    by_cases hc : lc = c
    · cases ia with
      | true =>
        rw [searchWalk_cons_found_anom c b' ln' lc rest acc hc] at h
        injection h with hr ht
        injection ht with ht
        injection ht with ht1 ht2
        refine ⟨rfl, [], rest, ?_, by simp, ?_⟩
        · rw [ht1, ht2, hc]
          rfl
        · rw [← hr]
          rfl
      | false =>
        rw [searchWalk_cons_found_nonanom c b' ln' lc rest acc hc] at h
        simp at h
    · rw [searchWalk_cons_skip ia c b' ln' lc rest acc hc] at h
      obtain ⟨hia, pre, rest', hsl, hpre, hr⟩ :=
        searchWalk_found_split ia c rest (absorb acc b') r b ln h
      refine ⟨hia, ((b', ln'), lc) :: pre, rest', by rw [hsl]; rfl, ?_, ?_⟩
      · intro e he
        rcases List.mem_cons.mp he with he | he
        · rw [he]; exact hc
        · exact hpre e he
      · rw [hr]
        rfl

/-- When the walk returns no target, either it broke at a non-anomalous
matching entry (absorbing the prefix and that entry), or it exhausted
the slice (absorbing everything). -/
theorem searchWalk_none_split {α : Type} (ia : Bool) (c : Nat) :
    ∀ (slice : List ((α × Nat) × Nat)) (acc r : SearchAcc α),
      searchWalk ia c slice acc = (r, none) →
      (∃ pre e rest, slice = pre ++ e :: rest ∧ (∀ x ∈ pre, x.2 ≠ c) ∧ e.2 = c ∧
          r = absorbAll acc ((pre ++ [e]).map (fun x => x.1.1))) ∨
        ((∀ x ∈ slice, x.2 ≠ c) ∧ r = absorbAll acc (slice.map (fun x => x.1.1)))
  | [], acc, r => by
    intro h
    rw [searchWalk_nil] at h
    injection h with hr _
    right
    exact ⟨by simp, by rw [← hr]; rfl⟩
  | ((b', ln'), lc) :: rest, acc, r => by
    intro h
    by_cases hc : lc = c
    · cases ia with
      | true =>
        rw [searchWalk_cons_found_anom c b' ln' lc rest acc hc] at h
        simp at h
      | false =>
        rw [searchWalk_cons_found_nonanom c b' ln' lc rest acc hc] at h
        injection h with hr _
        left
        exact ⟨[], ((b', ln'), lc), rest, by simp, by simp, hc, by rw [← hr]; rfl⟩
    · rw [searchWalk_cons_skip ia c b' ln' lc rest acc hc] at h
      rcases searchWalk_none_split ia c rest (absorb acc b') r h with
        ⟨pre, e, rest', hsl, hpre, hec, hr⟩ | ⟨hall, hr⟩
      · left
        refine ⟨((b', ln'), lc) :: pre, e, rest', by rw [hsl]; rfl, ?_, hec, by rw [hr]; rfl⟩
        intro x hx
        rcases List.mem_cons.mp hx with hx | hx
        · rw [hx]; exact hc
        · exact hpre x hx
      · right
        refine ⟨?_, by rw [hr]; rfl⟩
        intro x hx
        rcases List.mem_cons.mp hx with hx | hx
        · rw [hx]; exact hc
        · exact hall x hx

/-! ## Anomaly provenance through the search phase -/
theorem absorb_none {α : Type} (acc : SearchAcc α) (b : α)
    (h : acc.current_anomaly = none) :
    absorb acc b = { acc with buffer_pos := acc.buffer_pos + 1 } := by
  unfold absorb
  rw [h]

theorem absorb_some_full {α : Type} (acc : SearchAcc α) (b : α) (a : AnomalyContext α)
    (h : acc.current_anomaly = some a) (hlen : CTX_DISTANCE ≤ (a.after ++ [b]).length) :
    absorb acc b = ⟨acc.buffer_pos + 1, acc.buffer_pos + 1, none,
      acc.anomalies ++ [{ a with after := a.after ++ [b] }]⟩ := by
  unfold absorb
  rw [h]
  dsimp only
  rw [if_pos hlen]

theorem absorb_some_part {α : Type} (acc : SearchAcc α) (b : α) (a : AnomalyContext α)
    (h : acc.current_anomaly = some a) (hlen : ¬CTX_DISTANCE ≤ (a.after ++ [b]).length) :
    absorb acc b = ⟨acc.buffer_pos + 1, acc.buffer_pos + 1,
      some { a with after := a.after ++ [b] }, acc.anomalies⟩ := by
  unfold absorb
  rw [h]
  dsimp only
  rw [if_neg hlen]

/-- `absorb` only moves or extends existing anomalies: any property of
the `anomaly` fields of the queue and the open anomaly is preserved. -/
theorem absorb_pred {α : Type} (pred : Anomaly α → Prop) (acc : SearchAcc α) (b : α)
    (hq : ∀ a ∈ acc.anomalies, pred a.anomaly)
    (hc : ∀ cu, acc.current_anomaly = some cu → pred cu.anomaly) :
    (∀ a ∈ (absorb acc b).anomalies, pred a.anomaly) ∧
      (∀ cu, (absorb acc b).current_anomaly = some cu → pred cu.anomaly) := by
  cases h : acc.current_anomaly with
  | none =>
    rw [absorb_none acc b h]
    exact ⟨hq, fun cu hcu => Option.noConfusion (h.symm.trans hcu)⟩
  | some a =>
    by_cases hlen : CTX_DISTANCE ≤ (a.after ++ [b]).length
    · rw [absorb_some_full acc b a h hlen]
      refine ⟨?_, fun cu hcu => Option.noConfusion hcu⟩
      intro x hx
      rcases List.mem_append.mp hx with hx | hx
      · exact hq x hx
      · rw [List.mem_singleton.mp hx]
        exact hc a h
    · rw [absorb_some_part acc b a h hlen]
      refine ⟨hq, ?_⟩
      intro cu hcu
      injection hcu with hcu
      rw [← hcu]
      exact hc a h

theorem absorbAll_pred {α : Type} (pred : Anomaly α → Prop) :
    ∀ (raws : List α) (acc : SearchAcc α),
      (∀ a ∈ acc.anomalies, pred a.anomaly) →
      (∀ cu, acc.current_anomaly = some cu → pred cu.anomaly) →
      (∀ a ∈ (absorbAll acc raws).anomalies, pred a.anomaly) ∧
        (∀ cu, (absorbAll acc raws).current_anomaly = some cu → pred cu.anomaly)
  | [], acc => fun hq hc => ⟨hq, hc⟩
  | b :: raws, acc => fun hq hc => by
    rw [absorbAll_cons]
    have h := absorb_pred pred acc b hq hc
    exact absorbAll_pred pred raws (absorb acc b) h.1 h.2

/-- `tailSweep` only extends the open anomaly's after context and moves
it to the queue. -/
theorem tailSweep_pred {α : Type} (pred : Anomaly α → Prop) :
    ∀ (entries : List ((α × Nat) × Nat)) (a : AnomalyContext α)
      (anoms : List (AnomalyContext α)),
      (∀ x ∈ anoms, pred x.anomaly) → pred a.anomaly →
      (∀ x ∈ (tailSweep entries a anoms).2, pred x.anomaly) ∧
        (∀ cu, (tailSweep entries a anoms).1 = some cu → pred cu.anomaly)
  | [], a, anoms => fun hq ha => by
    refine ⟨hq, ?_⟩
    intro cu hcu
    injection hcu with hcu
    rw [← hcu]
    exact ha
  | ((b, _), _) :: rest, a, anoms => fun hq ha => by
    rw [tailSweep]
    dsimp only
    split
    · refine ⟨?_, by intro cu hcu; simp at hcu⟩
      intro x hx
      rcases List.mem_append.mp hx with hx | hx
      · exact hq x hx
      · rw [List.mem_singleton.mp hx]
        exact ha
    · exact tailSweep_pred pred rest _ anoms hq ha

/-- One search-target step creates anomalies only at buffer entries
whose stored coord is the target coord and whose distance is above the
threshold; every other anomaly was already present. -/
theorem searchTarget_pred {α : Type} (pred : Anomaly α → Prop)
    (buffer : List ((α × Nat) × Nat)) (left_overs : List α)
    (acc : SearchAcc α) (d : ℚ) (c : Nat)
    (hq : ∀ a ∈ acc.anomalies, pred a.anomaly)
    (hc : ∀ cu, acc.current_anomaly = some cu → pred cu.anomaly)
    (hnew : THRESHOLD < d → ∀ b ln, ((b, ln), c) ∈ buffer → pred ⟨d, ln, b⟩) :
    (∀ a ∈ (searchTarget buffer left_overs acc d c).anomalies, pred a.anomaly) ∧
      (∀ cu, (searchTarget buffer left_overs acc d c).current_anomaly = some cu →
        pred cu.anomaly) := by
  unfold searchTarget
  dsimp only
  cases hw : searchWalk (decide (THRESHOLD < d)) c (buffer.drop acc.buffer_pos) acc with
  | mk r t =>
    cases t with
    | none =>
      try dsimp only
      rcases searchWalk_none_split _ c _ acc r hw with
        ⟨pre, e, rest, _, _, _, hr⟩ | ⟨_, hr⟩ <;>
        · rw [hr]
          exact absorbAll_pred pred _ acc hq hc
    | some t =>
      try dsimp only
      obtain ⟨hia, pre, rest, hsl, _, hr⟩ :=
        searchWalk_found_split _ c _ acc r t.1 t.2 (by rw [hw])
      have hd : THRESHOLD < d := of_decide_eq_true hia
      have hmem : ((t.1, t.2), c) ∈ buffer := by
        apply List.drop_subset acc.buffer_pos buffer
        rw [hsl]
        exact List.mem_append.mpr (Or.inr (List.mem_cons_self _ _))
      have habs := absorbAll_pred pred (pre.map (fun e => e.1.1)) acc hq hc
      have hqr : ∀ a ∈ r.anomalies, pred a.anomaly := by
        rw [hr]; exact habs.1
      have hcr : ∀ cu, r.current_anomaly = some cu → pred cu.anomaly := by
        rw [hr]; exact habs.2
      refine ⟨?_, ?_⟩
      · intro x hx
        try dsimp only at hx
        rcases hcu : r.current_anomaly with hnone | a
        · rw [hcu] at hx
          exact hqr x hx
        · rw [hcu] at hx
          rcases List.mem_append.mp hx with hx | hx
          · exact hqr x hx
          · rw [List.mem_singleton.mp hx]
            exact hcr a hcu
      · intro cu hcu
        try dsimp only at hcu
        injection hcu with hcu
        rw [← hcu]
        exact hnew hd t.1 t.2 hmem

theorem reset_anomalies {α : Type} (s : ChunkProcessor α) (n : Nat) :
    (s.reset n).anomalies = s.anomalies := rfl

theorem reset_current_anomaly {α : Type} (s : ChunkProcessor α) (n : Nat) :
    (s.reset n).current_anomaly = s.current_anomaly := rfl

theorem do_search_coord {α : Type} (P : Params α) (s : ChunkProcessor α) :
    (s.do_search_anomalies P).coord = s.coord := rfl

/-- The whole search fold creates anomalies only at buffer entries whose
coord is some processed target coord with distance above the
threshold. -/
theorem searchFold_pred {α : Type} (pred : Anomaly α → Prop)
    (buffer : List ((α × Nat) × Nat)) (left_overs : List α) :
    ∀ (dcs : List (ℚ × Nat)) (acc : SearchAcc α),
      (∀ a ∈ acc.anomalies, pred a.anomaly) →
      (∀ cu, acc.current_anomaly = some cu → pred cu.anomaly) →
      (∀ dc ∈ dcs, THRESHOLD < dc.1 → ∀ b ln, ((b, ln), dc.2) ∈ buffer →
        pred ⟨dc.1, ln, b⟩) →
      (∀ a ∈ (dcs.foldl (fun acc dc => searchTarget buffer left_overs acc dc.1 dc.2)
          acc).anomalies, pred a.anomaly) ∧
        (∀ cu, (dcs.foldl (fun acc dc => searchTarget buffer left_overs acc dc.1 dc.2)
            acc).current_anomaly = some cu → pred cu.anomaly)
  | [], acc => fun hq hc _ => ⟨hq, hc⟩
  | dc :: dcs, acc => fun hq hc hnew => by
    rw [List.foldl_cons]
    have hstep := searchTarget_pred pred buffer left_overs acc dc.1 dc.2 hq hc
      (hnew dc (List.mem_cons_self _ _))
    exact searchFold_pred pred buffer left_overs dcs _ hstep.1 hstep.2
      (fun x hx => hnew x (List.mem_cons_of_mem _ hx))

/-- The whole search phase creates anomalies only at buffer entries
whose coord is a target coord with distance above the threshold. -/
theorem do_search_pred {α : Type} (P : Params α) (s : ChunkProcessor α)
    (pred : Anomaly α → Prop)
    (hq : ∀ a ∈ s.anomalies, pred a.anomaly)
    (hc : ∀ cu, s.current_anomaly = some cu → pred cu.anomaly)
    (hnew : ∀ dc ∈ (s.targets.map P.idx).zip s.targets_coord,
      THRESHOLD < dc.1 → ∀ b ln, ((b, ln), dc.2) ∈ s.buffer → pred ⟨dc.1, ln, b⟩) :
    (∀ a ∈ (s.do_search_anomalies P).anomalies, pred a.anomaly) ∧
      (∀ cu, (s.do_search_anomalies P).current_anomaly = some cu →
        pred cu.anomaly) := by
  unfold ChunkProcessor.do_search_anomalies
  dsimp only
  rw [reset_anomalies, reset_current_anomaly]
  dsimp only
  have hfold := searchFold_pred pred s.buffer s.left_overs
    ((s.targets.map P.idx).zip s.targets_coord)
    ⟨0, 0, s.current_anomaly, s.anomalies⟩ hq hc hnew
  set A := ((s.targets.map P.idx).zip s.targets_coord).foldl
    (fun acc dc => searchTarget s.buffer s.left_overs acc dc.1 dc.2)
    (⟨0, 0, s.current_anomaly, s.anomalies⟩ : SearchAcc α) with hA
  split
  · rename_i a heq
    have hpa : pred a.anomaly := hfold.2 a heq
    split
    · rename_i hlt
      have hsw := tailSweep_pred pred (s.buffer.drop A.last_context_pos) a
        A.anomalies hfold.1 hpa
      exact ⟨hsw.1, hsw.2⟩
    · rename_i hlt
      refine ⟨hfold.1, ?_⟩
      intro cu hcu
      injection hcu with hcu
      rw [← hcu]
      exact hpa
  · rename_i heq
    exact ⟨hfold.1, fun cu hcu => Option.noConfusion hcu⟩

/-- In a list that is strictly increasing under `f`, members with equal
`f`-value are equal. -/
theorem pairwise_lt_inj {β : Type} (f : β → Nat) :
    ∀ (l : List β), l.Pairwise (fun x y => f x < f y) →
      ∀ a ∈ l, ∀ b ∈ l, f a = f b → a = b
  | [], _, a, ha, _, _, _ => absurd ha (List.not_mem_nil a)
  | hd :: tl, hp, a, ha, b, hb, hfab => by
    have hhd := List.pairwise_cons.mp hp
    rcases List.mem_cons.mp ha with ha' | ha' <;> rcases List.mem_cons.mp hb with hb' | hb'
    · rw [ha', hb']
    · exfalso
      rw [ha'] at hfab
      have := hhd.1 b hb'
      omega
    · exfalso
      rw [hb'] at hfab
      have := hhd.1 a ha'
      omega
    · exact pairwise_lt_inj f tl hhd.2 a ha' b hb' hfab

theorem do_search_distInv {α : Type} (P : Params α) (s : ChunkProcessor α)
    (h : DistInv P s) : DistInv P (s.do_search_anomalies P) := by
  have hnew : ∀ dc ∈ (s.targets.map P.idx).zip s.targets_coord,
      THRESHOLD < dc.1 → ∀ b ln, ((b, ln), dc.2) ∈ s.buffer →
        GoodA P ⟨dc.1, ln, b⟩ := by
    intro dc hdc hT b ln hmem
    obtain ⟨e, he, hec, heidx⟩ := h.align dc hdc
    have heq : ((b, ln), dc.2) = e :=
      pairwise_lt_inj (fun x => x.2) s.buffer h.coords _ hmem e he hec.symm
    have hb : e.1.1 = b := by rw [← heq]
    refine ⟨?_, hT⟩
    show dc.1 = P.idx (P.tok b)
    rw [← heidx, hb]
  have hpred := do_search_pred P s (GoodA P) h.queue h.cur hnew
  refine ⟨hpred.1, hpred.2, ?_, ?_, ?_, ?_⟩
  · rw [ChunkProcessor.do_search_targets, ChunkProcessor.do_search_targets_coord]
    rfl
  · intro dc hdc
    rw [ChunkProcessor.do_search_targets] at hdc
    simp at hdc
  · rw [ChunkProcessor.do_search_buffer]
    exact List.Pairwise.nil
  · intro e he
    rw [ChunkProcessor.do_search_buffer] at he
    simp at he

theorem distInv_dup_state {α : Type} (P : Params α) (s : ChunkProcessor α)
    (l : α × Nat) (h : DistInv P s) :
    DistInv P { s with buffer := s.buffer ++ [(l, s.coord + 1)],
                       coord := s.coord + 1, line_count := s.line_count + 1,
                       byte_count := s.byte_count + P.blen l.1 } := by
  refine ⟨h.queue, h.cur, h.lens, ?_, ?_, ?_⟩
  · intro dc hdc
    obtain ⟨e, he, h1, h2⟩ := h.align dc hdc
    exact ⟨e, List.mem_append_left _ he, h1, h2⟩
  · rw [List.pairwise_append]
    refine ⟨h.coords, List.pairwise_singleton _ _, ?_⟩
    intro x hx y hy
    rw [List.mem_singleton.mp hy]
    exact Nat.lt_succ_of_le (h.bound x hx)
  · intro e he
    rcases List.mem_append.mp he with he | he
    · exact Nat.le_succ_of_le (h.bound e he)
    · rw [List.mem_singleton.mp he]

theorem distInv_unique_state {α : Type} (P : Params α) (s : ChunkProcessor α)
    (l : α × Nat) (h : DistInv P s) :
    DistInv P { s with buffer := s.buffer ++ [(l, s.coord + 1)],
                       skip_lines := P.tok l.1 :: s.skip_lines,
                       targets := s.targets ++ [P.tok l.1],
                       targets_coord := s.targets_coord ++ [s.coord + 1],
                       coord := s.coord + 1, line_count := s.line_count + 1,
                       byte_count := s.byte_count + P.blen l.1 } := by
  have hpush := distInv_dup_state P s l h
  refine ⟨h.queue, h.cur, ?_, ?_, hpush.coords, hpush.bound⟩
  · simp only [List.length_append, List.length_cons, List.length_nil]
    rw [h.lens]
  · intro dc hdc
    rw [List.map_append,
      List.zip_append (by rw [List.length_map]; exact h.lens)] at hdc
    rcases List.mem_append.mp hdc with hdc | hdc
    · obtain ⟨e, he, h1, h2⟩ := h.align dc hdc
      exact ⟨e, List.mem_append_left _ he, h1, h2⟩
    · rw [show (List.map P.idx [P.tok l.1]).zip [s.coord + 1] =
          [(P.idx (P.tok l.1), s.coord + 1)] from rfl] at hdc
      rw [List.mem_singleton.mp hdc]
      exact ⟨(l, s.coord + 1),
        List.mem_append_right _ (List.mem_singleton.mpr rfl), rfl, rfl⟩

theorem stepLine_distInv {α : Type} (P : Params α) (l : α × Nat)
    (s : ChunkProcessor α) (h : DistInv P s) :
    DistInv P (ChunkProcessor.stepLine P l s).state := by
  unfold ChunkProcessor.stepLine
  dsimp only
  split
  · exact ⟨h.queue, h.cur, h.lens, h.align, h.coords,
      fun e he => Nat.le_succ_of_le (h.bound e he)⟩
  · split
    · split
      · split <;> exact do_search_distInv P _ (distInv_dup_state P s l h)
      · exact distInv_dup_state P s l h
    · split
      · split <;> exact do_search_distInv P _ (distInv_unique_state P s l h)
      · exact distInv_unique_state P s l h

theorem distInv_set_reader {α : Type} (P : Params α) (s : ChunkProcessor α)
    (rd : List (α × Nat)) (h : DistInv P s) :
    DistInv P { s with reader := rd } :=
  ⟨h.queue, h.cur, h.lens, h.align, h.coords, h.bound⟩

theorem read_eof_distInv {α : Type} (P : Params α) (s : ChunkProcessor α)
    (h : DistInv P s) : DistInv P (ChunkProcessor.read_eof P s) := by
  unfold ChunkProcessor.read_eof
  dsimp only
  have h1 : DistInv P (if s.targets.isEmpty then s else s.do_search_anomalies P) := by
    split
    · exact h
    · exact do_search_distInv P s h
  split
  · rename_i a heq
    refine ⟨?_, ?_, h1.lens, h1.align, h1.coords, h1.bound⟩
    · intro x hx
      rcases List.mem_append.mp hx with hx | hx
      · exact h1.queue x hx
      · rw [List.mem_singleton.mp hx]
        exact h1.cur a heq
    · intro cu hcu
      exact Option.noConfusion hcu
  · exact ⟨h1.queue, h1.cur, h1.lens, h1.align, h1.coords, h1.bound⟩

theorem read_loop_distInv {α : Type} (P : Params α) :
    ∀ (ls : List (α × Nat)) (s : ChunkProcessor α),
      DistInv P s → DistInv P (ChunkProcessor.read_loop P ls s)
  | [], s => fun h => read_eof_distInv P s h
  | l :: rest, s => fun h => by
    rw [ChunkProcessor.read_loop]
    have hs := stepLine_distInv P l { s with reader := rest }
      (distInv_set_reader P s rest h)
    split
    · rename_i s' heq
      refine read_loop_distInv P rest s' ?_
      rw [heq] at hs
      exact hs
    · rename_i s' heq
      refine read_eof_distInv P s' ?_
      rw [heq] at hs
      exact hs
    · rename_i s' heq
      rw [heq] at hs
      exact hs

theorem read_anomalies_distInv {α : Type} (P : Params α) (s : ChunkProcessor α)
    (h : DistInv P s) : DistInv P (ChunkProcessor.read_anomalies P s) :=
  read_loop_distInv P s.reader s h

theorem nextFull_cons {α : Type} (P : Params α) (s : ChunkProcessor α)
    (a : AnomalyContext α) (rest : List (AnomalyContext α))
    (h : s.anomalies = a :: rest) :
    ChunkProcessor.nextFull P s = (some a, { s with anomalies := rest }) := by
  unfold ChunkProcessor.nextFull
  rw [h]

theorem nextFull_read_nil {α : Type} (P : Params α) (s : ChunkProcessor α)
    (h1 : s.anomalies = [])
    (h2 : (ChunkProcessor.read_anomalies P s).anomalies = []) :
    ChunkProcessor.nextFull P s = (none, ChunkProcessor.read_anomalies P s) := by
  unfold ChunkProcessor.nextFull
  rw [h1]
  show (match (ChunkProcessor.read_anomalies P s).anomalies with
    | [] => (none, ChunkProcessor.read_anomalies P s)
    | a :: rest =>
      (some a, { ChunkProcessor.read_anomalies P s with anomalies := rest })) = _
  rw [h2]

theorem nextFull_read_cons {α : Type} (P : Params α) (s : ChunkProcessor α)
    (a : AnomalyContext α) (rest : List (AnomalyContext α))
    (h1 : s.anomalies = [])
    (h2 : (ChunkProcessor.read_anomalies P s).anomalies = a :: rest) :
    ChunkProcessor.nextFull P s =
      (some a, { ChunkProcessor.read_anomalies P s with anomalies := rest }) := by
  unfold ChunkProcessor.nextFull
  rw [h1]
  show (match (ChunkProcessor.read_anomalies P s).anomalies with
    | [] => (none, ChunkProcessor.read_anomalies P s)
    | a :: rest =>
      (some a, { ChunkProcessor.read_anomalies P s with anomalies := rest })) = _
  rw [h2]

theorem distInv_pop {α : Type} (P : Params α) (s : ChunkProcessor α)
    (rest : List (AnomalyContext α)) (h : DistInv P s)
    (hsub : ∀ x ∈ rest, x ∈ s.anomalies) :
    DistInv P { s with anomalies := rest } :=
  ⟨fun x hx => h.queue x (hsub x hx), h.cur, h.lens, h.align, h.coords, h.bound⟩

theorem emitN_goodA {α : Type} (P : Params α) :
    ∀ (n : Nat) (s : ChunkProcessor α), DistInv P s →
      ∀ a ∈ ChunkProcessor.emitN P n s, GoodA P a.anomaly
  | 0, s, _, a, ha => absurd ha (List.not_mem_nil a)
  | n + 1, s, h, a, ha => by
    rw [ChunkProcessor.emitN] at ha
    cases hqe : s.anomalies with
    | cons a0 rest =>
      rw [nextFull_cons P s a0 rest hqe] at ha
      rcases List.mem_cons.mp ha with ha | ha
      · rw [ha]
        exact h.queue a0 (by rw [hqe]; exact List.mem_cons_self _ _)
      · refine emitN_goodA P n { s with anomalies := rest }
          (distInv_pop P s rest h ?_) a ha
        intro x hx
        rw [hqe]
        exact List.mem_cons_of_mem _ hx
    | nil =>
      have hread : DistInv P (ChunkProcessor.read_anomalies P s) :=
        read_anomalies_distInv P s h
      cases hqe2 : (ChunkProcessor.read_anomalies P s).anomalies with
      | nil =>
        rw [nextFull_read_nil P s hqe hqe2] at ha
        exact absurd ha (List.not_mem_nil a)
      | cons a0 rest =>
        rw [nextFull_read_cons P s a0 rest hqe hqe2] at ha
        rcases List.mem_cons.mp ha with ha | ha
        · rw [ha]
          exact hread.queue a0 (by rw [hqe2]; exact List.mem_cons_self _ _)
        · refine emitN_goodA P n _
            (distInv_pop P (ChunkProcessor.read_anomalies P s) rest hread ?_) a ha
          intro x hx
          rw [hqe2]
          exact List.mem_cons_of_mem _ hx

/-! ## C4 lemmas: memory bounds preservation -/
theorem reset_left_overs_le {α : Type} (s : ChunkProcessor α) (n : Nat) :
    (s.reset n).left_overs.length ≤ CTX_DISTANCE := by
  unfold ChunkProcessor.reset
  dsimp only
  rw [List.length_map, List.length_drop]
  split <;> omega

theorem do_search_left_overs_le {α : Type} (P : Params α) (s : ChunkProcessor α) :
    (s.do_search_anomalies P).left_overs.length ≤ CTX_DISTANCE := by
  unfold ChunkProcessor.do_search_anomalies
  exact reset_left_overs_le _ _

theorem stepLine_memBounds {α : Type} (P : Params α) (l : α × Nat)
    (s : ChunkProcessor α) (h : MemBounds s) :
    MemBounds (ChunkProcessor.stepLine P l s).state := by
  obtain ⟨h1, h2, h3⟩ := h
  have hsearch : ∀ u : ChunkProcessor α, MemBounds (u.do_search_anomalies P) := by
    intro u
    refine ⟨?_, ?_, do_search_left_overs_le P u⟩
    · rw [ChunkProcessor.do_search_buffer, ChunkProcessor.do_search_targets]
      simp
    · rw [ChunkProcessor.do_search_targets]
      simp [CHUNK_SIZE]
  unfold ChunkProcessor.stepLine
  dsimp only
  split
  · exact ⟨h1, h2, h3⟩
  · split
    · split
      · split <;> exact hsearch _
      · rename_i hnotlt
        dsimp only [ChunkProcessor.ReadStep.state, MemBounds]
        simp only [List.length_append, List.length_cons, List.length_nil] at hnotlt ⊢
        exact ⟨by omega, h2, h3⟩
    · split
      · split <;> exact hsearch _
      · rename_i hne
        dsimp only [ChunkProcessor.ReadStep.state, MemBounds]
        simp only [List.length_append, List.length_cons, List.length_nil] at hne ⊢
        exact ⟨by omega, by omega, h3⟩

theorem read_eof_memBounds {α : Type} (P : Params α) (s : ChunkProcessor α)
    (h : MemBounds s) : MemBounds (ChunkProcessor.read_eof P s) := by
  have hsearch : ∀ u : ChunkProcessor α, MemBounds (u.do_search_anomalies P) := by
    intro u
    refine ⟨?_, ?_, do_search_left_overs_le P u⟩
    · rw [ChunkProcessor.do_search_buffer, ChunkProcessor.do_search_targets]
      simp
    · rw [ChunkProcessor.do_search_targets]
      simp [CHUNK_SIZE]
  unfold ChunkProcessor.read_eof
  dsimp only
  have hs1 : MemBounds (if s.targets.isEmpty then s else s.do_search_anomalies P) := by
    split
    · exact h
    · exact hsearch s
  obtain ⟨h1, h2, h3⟩ := hs1
  split
  · exact ⟨h1, h2, h3⟩
  · exact ⟨h1, h2, h3⟩

theorem step_memBounds {α : Type} (P : Params α) (s s' : ChunkProcessor α)
    (hs : ChunkProcessor.Step P s s') (h : MemBounds s) : MemBounds s' := by
  cases hs with
  | line l rest hr => exact stepLine_memBounds P l _ h
  | pop a rest hr => exact h
  | flush => exact read_eof_memBounds P s h

/-! ## Claim theorems for C4 -/
/-- **C4 counterexample**: after processing line `CHUNK_SIZE * 10 + 1`
of `dataC4` (a stream of `CHUNK_SIZE * 10` known duplicates followed by
one fresh line), the reached state has `|buffer| = CHUNK_SIZE * 10 + 1 >
CHUNK_SIZE * 10`: the `CHUNK_SIZE * 10` bound does not hold after every
processed line, because the early-search buffer check only runs on
duplicate lines. -/
theorem C4_counterexample :
    ChunkProcessor.Reach PC4 sC4
        (ChunkProcessor.consume PC4 (CHUNK_SIZE * 10 + 1) sC4) ∧
      (ChunkProcessor.consume PC4 (CHUNK_SIZE * 10 + 1) sC4).buffer.length =
        CHUNK_SIZE * 10 + 1 ∧
      ¬(ChunkProcessor.consume PC4 (CHUNK_SIZE * 10 + 1) sC4).buffer.length ≤
        CHUNK_SIZE * 10 := by
  have hdup := ChunkProcessor.consume_dups PC4
    (List.replicate (CHUNK_SIZE * 10) ("a", 0)) [("b", 0)] sC4
    rfl
    (by
      intro l hl
      rw [List.eq_of_mem_replicate hl]
      exact List.mem_singleton.mpr rfl)
    (by simp [sC4, ChunkProcessor.new])
    rfl
  rw [List.length_replicate] at hdup
  have hlen : (ChunkProcessor.consume PC4 (CHUNK_SIZE * 10 + 1) sC4).buffer.length =
      CHUNK_SIZE * 10 + 1 := by
    rw [ChunkProcessor.consume_add PC4 (CHUNK_SIZE * 10) 1 sC4, hdup]
    rw [ChunkProcessor.consume]
    dsimp only
    rw [ChunkProcessor.stepLine_unique PC4 ("b", 0) _ rfl
      (by decide) (by simp [sC4, ChunkProcessor.new, CHUNK_SIZE])]
    dsimp only [ChunkProcessor.ReadStep.state]
    rw [ChunkProcessor.consume]
    simp [sC4, ChunkProcessor.new, tagFrom_length]
  exact ⟨ChunkProcessor.reach_consume PC4 _ sC4, hlen, by omega⟩

/-- **C4 amended**: after every processed line (and between search
phases) the state satisfies `|buffer| ≤ CHUNK_SIZE * 10 + |targets|`,
hence `|buffer| ≤ CHUNK_SIZE * 10 + CHUNK_SIZE - 1 = 5631` (the
`CHUNK_SIZE * 10` bound can be exceeded by up to `CHUNK_SIZE - 1` unique
lines), `|targets| ≤ CHUNK_SIZE = 512`, and
`|left_overs| ≤ CTX_DISTANCE = 3`. -/
theorem C4_amended_memory_bounds {α : Type} (P : Params α)
    (reader : List (α × Nat)) (job : Bool) (skip0 : List String)
    (s : ChunkProcessor α)
    (h : ChunkProcessor.Reach P (ChunkProcessor.new reader job skip0) s) :
    s.buffer.length ≤ CHUNK_SIZE * 10 + s.targets.length ∧
      s.buffer.length ≤ CHUNK_SIZE * 10 + CHUNK_SIZE - 1 ∧
      s.targets.length ≤ CHUNK_SIZE ∧
      s.left_overs.length ≤ CTX_DISTANCE := by
  have hmb : MemBounds s := by
    induction h with
    | refl =>
      refine ⟨?_, ?_, ?_⟩ <;> simp [ChunkProcessor.new, MemBounds, CHUNK_SIZE]
    | tail _ hstep ih => exact step_memBounds P _ _ hstep ih
  obtain ⟨h1, h2, h3⟩ := hmb
  have hc : CHUNK_SIZE = 512 := rfl
  exact ⟨h1, by omega, by omega, h3⟩

/-- Witness for the amended C4 at the freshly constructed processor. -/
theorem C4_amended_memory_bounds_witness :
    ChunkProcessor.Reach PTriv (ChunkProcessor.new [] false [])
        (ChunkProcessor.new [] false []) ∧
      ((ChunkProcessor.new ([] : List (String × Nat)) false []).buffer.length ≤
          CHUNK_SIZE * 10 +
            (ChunkProcessor.new ([] : List (String × Nat)) false []).targets.length ∧
        (ChunkProcessor.new ([] : List (String × Nat)) false []).buffer.length ≤
          CHUNK_SIZE * 10 + CHUNK_SIZE - 1 ∧
        (ChunkProcessor.new ([] : List (String × Nat)) false []).targets.length ≤
          CHUNK_SIZE ∧
        (ChunkProcessor.new ([] : List (String × Nat)) false []).left_overs.length ≤
          CTX_DISTANCE) :=
  ⟨Relation.ReflTransGen.refl,
    C4_amended_memory_bounds PTriv [] false [] (ChunkProcessor.new [] false [])
      Relation.ReflTransGen.refl⟩

/-! ## C9: index arithmetic safety -/
/-- **C9**: the slice and index arithmetic of `collect_before` and
`reset` never faults under the processor's usage.  From any accumulator
with `last_context_pos ≤ buffer_pos ≤ |buffer|` (as maintained by the
search fold, see `searchTarget_bounds`), when the walk finds a target —
the only case in which `do_search_anomalies` calls `collect_before` —
we have `1 ≤ buffer_pos` (the `buffer_pos - 1` argument does not
underflow), `last_context_pos ≤ buffer_pos - 1 ≤ |buffer|`, and the
Rust ranges are in bounds: `before_context_pos ≤ buffer_pos - 1` for
`buffer[before_context_pos..buffer_pos]`, `available - want ≤ available`
for `left_overs[(available - want)..]`, and
`max_left_overs_pos ≤ |buffer|` for `buffer[max_left_overs_pos..]` in
`reset`. -/
theorem C9_index_arithmetic_safe {α : Type} (buffer : List ((α × Nat) × Nat))
    (left_overs : List α) (ia : Bool) (c : Nat) (acc r : SearchAcc α)
    (t : Option (α × Nat))
    (h1 : acc.last_context_pos ≤ acc.buffer_pos)
    (h2 : acc.buffer_pos ≤ buffer.length)
    (hw : searchWalk ia c (buffer.drop acc.buffer_pos) acc = (r, t)) :
    (r.last_context_pos ≤ r.buffer_pos ∧ r.buffer_pos ≤ buffer.length) ∧
      (t.isSome = true →
        1 ≤ r.buffer_pos ∧
        r.last_context_pos ≤ r.buffer_pos - 1 ∧
        r.buffer_pos - 1 ≤ buffer.length ∧
        max r.last_context_pos
            (if r.buffer_pos - 1 < CTX_DISTANCE then 0
             else r.buffer_pos - 1 - CTX_DISTANCE) ≤ r.buffer_pos - 1 ∧
        (∀ need : Nat,
          left_overs.length - min need left_overs.length ≤ left_overs.length) ∧
        max r.last_context_pos
            (if buffer.length < CTX_DISTANCE then 0
             else buffer.length - CTX_DISTANCE) ≤ buffer.length) := by
  have hb := searchWalk_bounds ia c (buffer.drop acc.buffer_pos) acc h1
  rw [hw] at hb
  dsimp only at hb
  have hlen : (buffer.drop acc.buffer_pos).length = buffer.length - acc.buffer_pos :=
    List.length_drop _ _
  have hr2 : r.buffer_pos ≤ buffer.length := by
    have := hb.2.1
    rw [hlen] at this
    omega
  refine ⟨⟨hb.1, hr2⟩, ?_⟩
  intro hsome
  have h3 := hb.2.2 (by rw [hsome])
  refine ⟨by omega, by omega, by omega, ?_, fun need => Nat.sub_le _ _, ?_⟩
  · have hlcp : r.last_context_pos ≤ r.buffer_pos - 1 := by omega
    rcases Nat.lt_or_ge (r.buffer_pos - 1) CTX_DISTANCE with hlt | hge
    · simp [hlt]; omega
    · rw [if_neg (Nat.not_lt.mpr hge)]
      exact max_le hlcp (Nat.sub_le _ _)
  · have hlcp : r.last_context_pos ≤ buffer.length := le_trans hb.1 hr2
    split
    · simp [hlcp]
    · exact max_le hlcp (Nat.sub_le _ _)

/-- Witness for C9: the walk over the five-line S1 buffer finds the
anomalous coord-1 target from the initial accumulator. -/
theorem C9_index_arithmetic_safe_witness :
    ((0 : Nat) ≤ 0 ∧ (0 : Nat) ≤ bufS1.length ∧
      searchWalk true 1 (bufS1.drop 0) (⟨0, 0, none, []⟩ : SearchAcc String) =
        (⟨2, 0, none, []⟩, some ("line1", 1))) ∧
    (((⟨2, 0, none, []⟩ : SearchAcc String).last_context_pos ≤
          (⟨2, 0, none, []⟩ : SearchAcc String).buffer_pos ∧
        (⟨2, 0, none, []⟩ : SearchAcc String).buffer_pos ≤ bufS1.length) ∧
      ((some ("line1", 1)).isSome = true →
        1 ≤ (⟨2, 0, none, []⟩ : SearchAcc String).buffer_pos ∧
        (⟨2, 0, none, []⟩ : SearchAcc String).last_context_pos ≤
          (⟨2, 0, none, []⟩ : SearchAcc String).buffer_pos - 1 ∧
        (⟨2, 0, none, []⟩ : SearchAcc String).buffer_pos - 1 ≤ bufS1.length ∧
        max (⟨2, 0, none, []⟩ : SearchAcc String).last_context_pos
            (if (⟨2, 0, none, []⟩ : SearchAcc String).buffer_pos - 1 < CTX_DISTANCE then 0
             else (⟨2, 0, none, []⟩ : SearchAcc String).buffer_pos - 1 - CTX_DISTANCE) ≤
          (⟨2, 0, none, []⟩ : SearchAcc String).buffer_pos - 1 ∧
        (∀ need : Nat,
          ([] : List String).length - min need ([] : List String).length ≤
            ([] : List String).length) ∧
        max (⟨2, 0, none, []⟩ : SearchAcc String).last_context_pos
            (if bufS1.length < CTX_DISTANCE then 0
             else bufS1.length - CTX_DISTANCE) ≤ bufS1.length)) :=
  ⟨⟨by decide, by decide, by decide⟩,
    C9_index_arithmetic_safe bufS1 [] true 1 ⟨0, 0, none, []⟩ ⟨2, 0, none, []⟩
      (some ("line1", 1)) (by decide) (by decide) (by decide)⟩

/-! ## Claim theorems: concrete scenarios -/
/-- **C5**: `collect_before` and `reset` satisfy the S1 arithmetic: with
a buffer of five lines at indices 0..4, `collect_before 0 0 buf []` is
`[]`, `collect_before 1 0 buf []` is `[line0]`, `collect_before 1 1 buf []`
is `[]`, `collect_before 4 0 buf []` is `[line1, line2, line3]`; after
`reset 3` the buffer is empty and `left_overs = [line3, line4]`; after
appending a coord-6 line, `collect_before 1 0 buf left_overs` is
`[line3, line4, line6]`. -/
theorem C5_leftovers_arithmetic :
    collect_before 0 0 bufS1 ([] : List String) = [] ∧
    collect_before 1 0 bufS1 ([] : List String) = ["line0"] ∧
    collect_before 1 1 bufS1 ([] : List String) = [] ∧
    collect_before 4 0 bufS1 ([] : List String) = ["line1", "line2", "line3"] ∧
    (stateS1.reset 3).buffer = [] ∧
    (stateS1.reset 3).left_overs = ["line3", "line4"] ∧
    collect_before 1 0 [(("line6", 6), 6)] (stateS1.reset 3).left_overs =
      ["line3", "line4", "line6"] := by
  decide

/-- **C3 amended**: during the search walk, a buffer line is appended to
the open anomaly's after context both when its coord differs from the
current target coord and when its coord equals the current target coord
but the target is not an anomaly; only the anomalous target's own line
is withheld from the after context. -/
theorem C3_amended_after_append {α : Type} (c : Nat) (b : α) (ln lc : Nat)
    (rest : List ((α × Nat) × Nat)) (acc : SearchAcc α) (a : AnomalyContext α)
    (ha : acc.current_anomaly = some a) :
    (lc = c → searchWalk true c (((b, ln), lc) :: rest) acc =
        ({ acc with buffer_pos := acc.buffer_pos + 1 }, some (b, ln))) ∧
    (lc = c → searchWalk false c (((b, ln), lc) :: rest) acc = (absorb acc b, none)) ∧
    (lc ≠ c → ∀ ia : Bool, searchWalk ia c (((b, ln), lc) :: rest) acc =
        searchWalk ia c rest (absorb acc b)) ∧
    ((absorb acc b).current_anomaly = some { a with after := a.after ++ [b] } ∨
      ((absorb acc b).current_anomaly = none ∧
        (absorb acc b).anomalies = acc.anomalies ++ [{ a with after := a.after ++ [b] }])) := by
  refine ⟨fun h => searchWalk_cons_found_anom c b ln lc rest acc h,
    fun h => searchWalk_cons_found_nonanom c b ln lc rest acc h,
    fun h ia => searchWalk_cons_skip ia c b ln lc rest acc h, ?_⟩
  unfold absorb
  rw [ha]
  dsimp only
  split
  · right; exact ⟨rfl, rfl⟩
  · left; rfl

/-- Witness for the C3 amended theorem at a concrete accumulator, line
and target coord. -/
theorem C3_amended_after_append_witness :
    accC3.current_anomaly = some anomC3 ∧
    (((2 : Nat) = 2 → searchWalk true 2 [(("a", 2), 2)] accC3 =
        ({ accC3 with buffer_pos := accC3.buffer_pos + 1 }, some ("a", 2))) ∧
      ((2 : Nat) = 2 → searchWalk false 2 [(("a", 2), 2)] accC3 = (absorb accC3 "a", none)) ∧
      ((2 : Nat) ≠ 2 → ∀ ia : Bool, searchWalk ia 2 [(("a", 2), 2)] accC3 =
          searchWalk ia 2 [] (absorb accC3 "a")) ∧
      ((absorb accC3 "a").current_anomaly =
          some { anomC3 with after := anomC3.after ++ ["a"] } ∨
        ((absorb accC3 "a").current_anomaly = none ∧
          (absorb accC3 "a").anomalies =
            accC3.anomalies ++ [{ anomC3 with after := anomC3.after ++ ["a"] }]))) :=
  ⟨by decide, C3_amended_after_append 2 "a" 2 2 [] accC3 anomC3 (by decide)⟩

/-- **C3 counterexample**: in the two-line run `[x, a]` where `a` is a
unique line matching the baseline (distance `0 ≤ THRESHOLD`), the search
walk reaches `a` with the target coord equal to `a`'s coord, yet `a` is
appended to the open anomaly's after context — refuting the claim that a
buffer line is appended only when its coord differs from the current
target coord. -/
theorem C3_counterexample :
    ChunkProcessor.emitN PC3 2 (ChunkProcessor.new dataC3 false []) =
      [⟨[], ⟨1, 1, "x"⟩, ["a"]⟩] ∧
    PC3.idx (PC3.tok "a") ≤ THRESHOLD := by
  decide

/-- **C8**: the code does not stop at the self-exclusion marker.  On
`dataC8` with `is_job_output = true`, the marker is the second line
(coord 2), yet after delivering the pending anomaly the iterator resumes
reading and emits an anomaly with `pos = 3 > 2`. -/
theorem C8_marker_resume :
    dataC8.map (fun l => PC8.marker l.1) = [false, true, false] ∧
    (ChunkProcessor.emitN PC8 2 (ChunkProcessor.new dataC8 true [])).map
      (fun a => a.anomaly.pos) = [1, 3] := by
  decide

/-- **C6**: on `dataC6` the second emitted anomaly (coord 7, line `Y`)
has non-empty before context whose last element is line 5 (`s`), but the
line immediately preceding `Y` in the target stream is line 6 (the
marker line), which is never captured — refuting the claim that the last
element of a non-empty `before` is the immediately preceding raw line. -/
theorem C6_adjacency_broken :
    (ChunkProcessor.emitN PC6 2 (ChunkProcessor.new dataC6 true [])).map
      (fun a => (a.before, a.anomaly.pos)) = [([], 1), (["s"], 7)] ∧
    dataC6.get? 5 = some ("TASK [run-logjuicer : test]", 6) ∧
    ("s" : String) ≠ "TASK [run-logjuicer : test]" := by
  decide

/-- **C1**: the source line with coord 3 occupies two slots across the
emitted anomalies of the `dataC1` run: it is in the first anomaly's
after context (via the tail sweep, which does not advance
`last_context_pos`, so `reset` also keeps the line in `left_overs`) and
in the second anomaly's before context — refuting the no-reuse claim. -/
theorem C1_line_reuse :
    (ChunkProcessor.emitN PC1 3 (ChunkProcessor.new dataC1 true [])).map
      (fun a => (a.before, a.anomaly.line, a.after)) =
      [([1], 2, [3]), ([3], 5, [])] := by
  decide

/-! ## C7: the threshold characterizes emitted anomalies -/
/-- **C7**: for every run of the `ChunkProcessor`, every emitted
`AnomalyContext` has `anomaly.distance` equal to the index distance of
its tokenized line and strictly above `THRESHOLD = 0.3`; consequently a
line whose index distance is at most the threshold never appears as the
anomaly of any emitted `AnomalyContext`. -/
theorem C7_threshold {α : Type} (P : Params α) (reader : List (α × Nat))
    (job : Bool) (skip0 : List String) (n : Nat) :
    ∀ a ∈ ChunkProcessor.emitN P n (ChunkProcessor.new reader job skip0),
      a.anomaly.distance = P.idx (P.tok a.anomaly.line) ∧
        THRESHOLD < a.anomaly.distance ∧
        ∀ b, P.idx (P.tok b) ≤ THRESHOLD → a.anomaly.line ≠ b := by
  have hinv : DistInv P (ChunkProcessor.new reader job skip0) := by
    refine ⟨?_, ?_, rfl, ?_, List.Pairwise.nil, ?_⟩
    · intro a ha
      exact absurd ha (List.not_mem_nil a)
    · intro cu hcu
      exact Option.noConfusion hcu
    · intro dc hdc
      exact absurd hdc (List.not_mem_nil dc)
    · intro e he
      exact absurd he (List.not_mem_nil e)
  intro a ha
  obtain ⟨h1, h2⟩ := emitN_goodA P n _ hinv a ha
  refine ⟨h1, h2, ?_⟩
  intro b hb heq
  rw [heq] at h1
  rw [h1] at h2
  exact absurd h2 (not_lt.mpr hb)

/-- Witness for C7 at the two-line run of `dataC3`. -/
theorem C7_threshold_witness :
    (⟨[], ⟨1, 1, "x"⟩, ["a"]⟩ : AnomalyContext String) ∈
        ChunkProcessor.emitN PC3 2 (ChunkProcessor.new dataC3 false []) ∧
      ((⟨[], ⟨1, 1, "x"⟩, ["a"]⟩ : AnomalyContext String).anomaly.distance =
          PC3.idx (PC3.tok (⟨[], ⟨1, 1, "x"⟩, ["a"]⟩ :
            AnomalyContext String).anomaly.line) ∧
        THRESHOLD < (⟨[], ⟨1, 1, "x"⟩, ["a"]⟩ :
          AnomalyContext String).anomaly.distance ∧
        ∀ b, PC3.idx (PC3.tok b) ≤ THRESHOLD →
          (⟨[], ⟨1, 1, "x"⟩, ["a"]⟩ :
            AnomalyContext String).anomaly.line ≠ b) :=
  ⟨by decide, C7_threshold PC3 dataC3 false [] 2 ⟨[], ⟨1, 1, "x"⟩, ["a"]⟩ (by decide)⟩

/-- Absorbing a line preserves the walk invariant, shrinking the
remaining slice. -/
theorem spInv_tail {α : Type} (e : (α × Nat) × Nat) (S : List ((α × Nat) × Nat))
    (acc : SearchAcc α) (b : α) (h : SPInv (e :: S) acc) :
    SPInv S (absorb acc b) := by
  cases hc : acc.current_anomaly with
  | none =>
    rw [absorb_none acc b hc]
    refine ⟨h.queue, ?_, ?_, ?_⟩
    · intro a ha cu hcu
      exact h.qcur a ha cu (hc.symm.trans hcu |>.symm ▸ hcu)
    · intro a ha x hx
      exact h.qbuf a ha x (List.mem_cons_of_mem _ hx)
    · intro cu hcu
      exact absurd (hc.symm.trans hcu) (by simp)
  | some a =>
    by_cases hlen : CTX_DISTANCE ≤ (a.after ++ [b]).length
    · rw [absorb_some_full acc b a hc hlen]
      refine ⟨?_, ?_, ?_, ?_⟩
      · rw [List.pairwise_append]
        refine ⟨h.queue, List.pairwise_singleton _ _, ?_⟩
        intro x hx y hy
        rw [List.mem_singleton.mp hy]
        exact h.qcur x hx a hc
      · intro x _ cu hcu
        exact Option.noConfusion hcu
      · intro x hx e' he'
        rcases List.mem_append.mp hx with hx | hx
        · exact h.qbuf x hx e' (List.mem_cons_of_mem _ he')
        · rw [List.mem_singleton.mp hx]
          exact h.cbuf a hc e' (List.mem_cons_of_mem _ he')
      · intro cu hcu
        exact Option.noConfusion hcu
    · rw [absorb_some_part acc b a hc hlen]
      refine ⟨h.queue, ?_, ?_, ?_⟩
      · intro x hx cu hcu
        injection hcu with hcu
        rw [← hcu]
        exact h.qcur x hx a hc
      · intro x hx e' he'
        exact h.qbuf x hx e' (List.mem_cons_of_mem _ he')
      · intro cu hcu e' he'
        injection hcu with hcu
        rw [← hcu]
        exact h.cbuf a hc e' (List.mem_cons_of_mem _ he')

/-- The walk never moves `buffer_pos` backwards. -/
theorem searchWalk_bp_mono {α : Type} (ia : Bool) (c : Nat) :
    ∀ (slice : List ((α × Nat) × Nat)) (acc : SearchAcc α),
      acc.buffer_pos ≤ (searchWalk ia c slice acc).1.buffer_pos
  | [], acc => by rw [searchWalk_nil]
  | ((b, ln), lc) :: rest, acc => by
    by_cases hc : lc = c
    · cases ia with
      | true =>
        rw [searchWalk_cons_found_anom c b ln lc rest acc hc]
        exact Nat.le_succ _
      | false =>
        rw [searchWalk_cons_found_nonanom c b ln lc rest acc hc]
        rw [absorb_buffer_pos]
        exact Nat.le_succ _
    · rw [searchWalk_cons_skip ia c b ln lc rest acc hc]
      have := searchWalk_bp_mono ia c rest (absorb acc b)
      rw [absorb_buffer_pos] at this
      omega

/-- The search walk preserves the position-ordering invariant relative
to the not-yet-visited slice, and when it finds a target the found line
number lies strictly between all queued or open positions and the line
numbers of the remaining slice. -/
theorem searchWalk_spInv {α : Type} (ia : Bool) (c : Nat) :
    ∀ (slice : List ((α × Nat) × Nat)) (acc : SearchAcc α),
      List.Pairwise (fun e1 e2 : (α × Nat) × Nat => e1.1.2 < e2.1.2) slice →
      SPInv slice acc →
      (∀ r, searchWalk ia c slice acc = (r, none) →
        SPInv (slice.drop (r.buffer_pos - acc.buffer_pos)) r) ∧
      (∀ r b ln, searchWalk ia c slice acc = (r, some (b, ln)) →
        SPInv (slice.drop (r.buffer_pos - acc.buffer_pos)) r ∧
          (∀ e ∈ slice.drop (r.buffer_pos - acc.buffer_pos), ln < e.1.2) ∧
          (∀ a ∈ r.anomalies, a.anomaly.pos < ln) ∧
          (∀ cu, r.current_anomaly = some cu → cu.anomaly.pos < ln))
  | [], acc => by
    intro _ h
    constructor
    · intro r hr
      rw [searchWalk_nil] at hr
      injection hr with hr _
      rw [← hr]
      refine ⟨h.queue, h.qcur, ?_, ?_⟩
      · intro a _ e he
        exact absurd (List.mem_of_mem_drop he) (List.not_mem_nil e)
      · intro cu _ e he
        exact absurd (List.mem_of_mem_drop he) (List.not_mem_nil e)
    · intro r b ln hr
      rw [searchWalk_nil] at hr
      simp at hr
  | ((b0, ln0), lc) :: rest, acc => by
    intro hp h
    have hp' := List.pairwise_cons.mp hp
    by_cases hc : lc = c
    · cases ia with
      | true =>
        constructor
        · intro r hr
          rw [searchWalk_cons_found_anom c b0 ln0 lc rest acc hc] at hr
          simp at hr
        · intro r b ln hr
          rw [searchWalk_cons_found_anom c b0 ln0 lc rest acc hc] at hr
          injection hr with hr1 hr2
          injection hr2 with hr2
          injection hr2 with hrb hrln
          rw [← hr1, ← hrln]
          have hdrop : (((b0, ln0), lc) :: rest).drop
              (({ acc with buffer_pos := acc.buffer_pos + 1} :
                SearchAcc α).buffer_pos - acc.buffer_pos) = rest := by
            have : ({ acc with buffer_pos := acc.buffer_pos + 1} :
                SearchAcc α).buffer_pos - acc.buffer_pos = 1 := by
              show acc.buffer_pos + 1 - acc.buffer_pos = 1
              omega
            rw [this]
            rfl
          rw [hdrop]
          refine ⟨⟨h.queue, h.qcur, ?_, ?_⟩, ?_, ?_, ?_⟩
          · intro a ha e he
            exact h.qbuf a ha e (List.mem_cons_of_mem _ he)
          · intro cu hcu e he
            exact h.cbuf cu hcu e (List.mem_cons_of_mem _ he)
          · intro e he
            exact hp'.1 e he
          · intro a ha
            exact h.qbuf a ha ((b0, ln0), lc) (List.mem_cons_self _ _)
          · intro cu hcu
            exact h.cbuf cu hcu ((b0, ln0), lc) (List.mem_cons_self _ _)
      | false =>
        constructor
        · intro r hr
          rw [searchWalk_cons_found_nonanom c b0 ln0 lc rest acc hc] at hr
          injection hr with hr _
          rw [← hr]
          have hdrop : (((b0, ln0), lc) :: rest).drop
              ((absorb acc b0).buffer_pos - acc.buffer_pos) = rest := by
            have : (absorb acc b0).buffer_pos - acc.buffer_pos = 1 := by
              rw [absorb_buffer_pos]; omega
            rw [this]
            rfl
          rw [hdrop]
          exact spInv_tail ((b0, ln0), lc) rest acc b0 h
        · intro r b ln hr
          rw [searchWalk_cons_found_nonanom c b0 ln0 lc rest acc hc] at hr
          simp at hr
    · have hs := spInv_tail ((b0, ln0), lc) rest acc b0 h
      have hih := searchWalk_spInv ia c rest (absorb acc b0) hp'.2 hs
      constructor
      · intro r hr
        rw [searchWalk_cons_skip ia c b0 ln0 lc rest acc hc] at hr
        have hmono0 := searchWalk_bp_mono ia c rest (absorb acc b0)
        rw [hr, absorb_buffer_pos] at hmono0
        have hmono : acc.buffer_pos + 1 ≤ r.buffer_pos := hmono0
        have h1 := hih.1 r hr
        rw [absorb_buffer_pos] at h1
        have hdrop : (((b0, ln0), lc) :: rest).drop (r.buffer_pos - acc.buffer_pos) =
            rest.drop (r.buffer_pos - (acc.buffer_pos + 1)) := by
          have heq : r.buffer_pos - acc.buffer_pos =
              (r.buffer_pos - (acc.buffer_pos + 1)) + 1 := by omega
          rw [heq, List.drop_succ_cons]
        rw [hdrop]
        exact h1
      · intro r b ln hr
        rw [searchWalk_cons_skip ia c b0 ln0 lc rest acc hc] at hr
        have hmono0 := searchWalk_bp_mono ia c rest (absorb acc b0)
        rw [hr, absorb_buffer_pos] at hmono0
        have hmono : acc.buffer_pos + 1 ≤ r.buffer_pos := hmono0
        have h1 := hih.2 r b ln hr
        rw [absorb_buffer_pos] at h1
        have hdrop : (((b0, ln0), lc) :: rest).drop (r.buffer_pos - acc.buffer_pos) =
            rest.drop (r.buffer_pos - (acc.buffer_pos + 1)) := by
          have heq : r.buffer_pos - acc.buffer_pos =
              (r.buffer_pos - (acc.buffer_pos + 1)) + 1 := by omega
          rw [heq, List.drop_succ_cons]
        rw [hdrop]
        exact h1

/-- One search-target step preserves the position-ordering invariant
relative to the buffer slice past `buffer_pos`. -/
theorem searchTarget_spInv {α : Type} (buffer : List ((α × Nat) × Nat))
    (left_overs : List α) (acc : SearchAcc α) (d : ℚ) (c : Nat)
    (hp : List.Pairwise (fun e1 e2 : (α × Nat) × Nat => e1.1.2 < e2.1.2) buffer)
    (h : SPInv (buffer.drop acc.buffer_pos) acc) :
    SPInv (buffer.drop (searchTarget buffer left_overs acc d c).buffer_pos)
      (searchTarget buffer left_overs acc d c) := by
  unfold searchTarget
  dsimp only
  have hpslice : List.Pairwise (fun e1 e2 : (α × Nat) × Nat => e1.1.2 < e2.1.2)
      (buffer.drop acc.buffer_pos) :=
    hp.sublist (List.drop_sublist _ _)
  have hw := searchWalk_spInv (decide (THRESHOLD < d)) c
    (buffer.drop acc.buffer_pos) acc hpslice h
  cases hres : searchWalk (decide (THRESHOLD < d)) c (buffer.drop acc.buffer_pos) acc with
  | mk r t =>
    have hmono : acc.buffer_pos ≤ r.buffer_pos := by
      have hm := searchWalk_bp_mono (decide (THRESHOLD < d)) c
        (buffer.drop acc.buffer_pos) acc
      rw [hres] at hm
      exact hm
    have hd : (buffer.drop acc.buffer_pos).drop (r.buffer_pos - acc.buffer_pos) =
        buffer.drop r.buffer_pos := by
      rw [List.drop_drop]
      congr 1
      omega
    cases t with
    | none =>
      have h1 := hw.1 r hres
      rw [hd] at h1
      exact h1
    | some t =>
      have h1 := hw.2 r t.1 t.2 (by rw [hres])
      rw [hd] at h1
      obtain ⟨hsp, hrem, hqln, hcln⟩ := h1
      dsimp only
      split
      · rename_i a heq
        refine ⟨?_, ?_, ?_, ?_⟩
        · rw [List.pairwise_append]
          refine ⟨hsp.queue, List.pairwise_singleton _ _, ?_⟩
          intro x hx y hy
          rw [List.mem_singleton.mp hy]
          exact hsp.qcur x hx a heq
        · intro x hx cu hcu
          injection hcu with hcu
          rw [← hcu]
          rcases List.mem_append.mp hx with hx | hx
          · exact hqln x hx
          · rw [List.mem_singleton.mp hx]
            exact hcln a heq
        · intro x hx e he
          rcases List.mem_append.mp hx with hx | hx
          · exact hsp.qbuf x hx e he
          · rw [List.mem_singleton.mp hx]
            exact hsp.cbuf a heq e he
        · intro cu hcu e he
          injection hcu with hcu
          rw [← hcu]
          exact hrem e he
      · rename_i heq
        refine ⟨hsp.queue, ?_, hsp.qbuf, ?_⟩
        · intro x hx cu hcu
          injection hcu with hcu
          rw [← hcu]
          exact hqln x hx
        · intro cu hcu e he
          injection hcu with hcu
          rw [← hcu]
          exact hrem e he

/-- The search fold preserves the position-ordering invariant. -/
theorem searchFold_spInv {α : Type} (buffer : List ((α × Nat) × Nat))
    (left_overs : List α)
    (hp : List.Pairwise (fun e1 e2 : (α × Nat) × Nat => e1.1.2 < e2.1.2) buffer) :
    ∀ (dcs : List (ℚ × Nat)) (acc : SearchAcc α),
      SPInv (buffer.drop acc.buffer_pos) acc →
      SPInv (buffer.drop
          ((dcs.foldl (fun acc dc => searchTarget buffer left_overs acc dc.1 dc.2)
            acc).buffer_pos))
        (dcs.foldl (fun acc dc => searchTarget buffer left_overs acc dc.1 dc.2) acc)
  | [], acc => fun h => h
  | dc :: dcs, acc => fun h => by
    rw [List.foldl_cons]
    exact searchFold_spInv buffer left_overs hp dcs _
      (searchTarget_spInv buffer left_overs acc dc.1 dc.2 hp h)

/-- The tail sweep preserves the queue ordering and keeps the open
anomaly above the queue. -/
theorem tailSweep_spInv {α : Type} :
    ∀ (es : List ((α × Nat) × Nat)) (a : AnomalyContext α)
      (anoms : List (AnomalyContext α)),
      List.Pairwise (fun x y : AnomalyContext α =>
        x.anomaly.pos < y.anomaly.pos) anoms →
      (∀ x ∈ anoms, x.anomaly.pos < a.anomaly.pos) →
      List.Pairwise (fun x y : AnomalyContext α =>
          x.anomaly.pos < y.anomaly.pos) (tailSweep es a anoms).2 ∧
        (∀ x ∈ (tailSweep es a anoms).2, ∀ cu, (tailSweep es a anoms).1 = some cu →
          x.anomaly.pos < cu.anomaly.pos)
  | [], a, anoms => fun hq hqa => by
    refine ⟨hq, ?_⟩
    intro x hx cu hcu
    injection hcu with hcu
    rw [← hcu]
    exact hqa x hx
  | ((b, _), _) :: rest, a, anoms => fun hq hqa => by
    rw [tailSweep]
    dsimp only
    split
    · refine ⟨?_, ?_⟩
      · rw [List.pairwise_append]
        refine ⟨hq, List.pairwise_singleton _ _, ?_⟩
        intro x hx y hy
        rw [List.mem_singleton.mp hy]
        exact hqa x hx
      · intro x _ cu hcu
        exact Option.noConfusion hcu
    · exact tailSweep_spInv rest _ anoms hq hqa

/-- The search phase keeps the anomalies queue in strictly increasing
`pos` order, with the open anomaly above all of it. -/
theorem do_search_queue_order {α : Type} (P : Params α) (s : ChunkProcessor α)
    (hq : List.Pairwise (fun a b : AnomalyContext α =>
      a.anomaly.pos < b.anomaly.pos) s.anomalies)
    (hqc : ∀ a ∈ s.anomalies, ∀ cu, s.current_anomaly = some cu →
      a.anomaly.pos < cu.anomaly.pos)
    (hqb : ∀ a ∈ s.anomalies, ∀ e ∈ s.buffer, a.anomaly.pos < e.1.2)
    (hcb : ∀ cu, s.current_anomaly = some cu → ∀ e ∈ s.buffer,
      cu.anomaly.pos < e.1.2)
    (hbs : List.Pairwise (fun e1 e2 : (α × Nat) × Nat => e1.1.2 < e2.1.2) s.buffer) :
    List.Pairwise (fun a b : AnomalyContext α =>
        a.anomaly.pos < b.anomaly.pos) (s.do_search_anomalies P).anomalies ∧
      (∀ x ∈ (s.do_search_anomalies P).anomalies,
        ∀ cu, (s.do_search_anomalies P).current_anomaly = some cu →
          x.anomaly.pos < cu.anomaly.pos) := by
  unfold ChunkProcessor.do_search_anomalies
  dsimp only
  rw [reset_anomalies, reset_current_anomaly]
  dsimp only
  have hstart : SPInv (s.buffer.drop (0 : Nat))
      (⟨0, 0, s.current_anomaly, s.anomalies⟩ : SearchAcc α) := by
    rw [List.drop_zero]
    exact ⟨hq, hqc, hqb, hcb⟩
  have hfold := searchFold_spInv s.buffer s.left_overs hbs
    ((s.targets.map P.idx).zip s.targets_coord)
    ⟨0, 0, s.current_anomaly, s.anomalies⟩ hstart
  set A := ((s.targets.map P.idx).zip s.targets_coord).foldl
    (fun acc dc => searchTarget s.buffer s.left_overs acc dc.1 dc.2)
    (⟨0, 0, s.current_anomaly, s.anomalies⟩ : SearchAcc α) with hA
  split
  · rename_i a heq
    split
    · rename_i hlt
      exact tailSweep_spInv (s.buffer.drop A.last_context_pos) a A.anomalies
        hfold.queue (fun x hx => hfold.qcur x hx a heq)
    · rename_i hlt
      refine ⟨hfold.queue, ?_⟩
      intro x hx cu hcu
      injection hcu with hcu
      rw [← hcu]
      exact hfold.qcur x hx a heq
  · rename_i heq
    exact ⟨hfold.queue, fun x hx cu hcu => Option.noConfusion hcu⟩

theorem do_search_posInv {α : Type} (P : Params α) (s : ChunkProcessor α)
    (h : PosInv s) : PosInv (s.do_search_anomalies P) := by
  have horder := do_search_queue_order P s h.queue h.qcur h.qbuf h.cbuf h.bufsort
  have hrd := do_search_pred P s (fun an => ∀ r ∈ s.reader, an.pos < r.2)
    h.qrd h.crd
    (fun dc hdc hT b ln hmem r hr => h.bufrd ((b, ln), dc.2) hmem r hr)
  refine ⟨horder.1, horder.2, ?_, ?_, ?_, ?_, ?_, ?_, ?_⟩
  · intro a _ e he
    rw [ChunkProcessor.do_search_buffer] at he
    exact absurd he (List.not_mem_nil e)
  · intro cu _ e he
    rw [ChunkProcessor.do_search_buffer] at he
    exact absurd he (List.not_mem_nil e)
  · intro a ha r hr
    rw [ChunkProcessor.do_search_reader] at hr
    exact hrd.1 a ha r hr
  · intro cu hcu r hr
    rw [ChunkProcessor.do_search_reader] at hr
    exact hrd.2 cu hcu r hr
  · rw [ChunkProcessor.do_search_buffer]
    exact List.Pairwise.nil
  · intro e he
    rw [ChunkProcessor.do_search_buffer] at he
    exact absurd he (List.not_mem_nil e)
  · rw [ChunkProcessor.do_search_reader]
    exact h.rdsort

/-- Reading one line into the buffer (the state just before the
duplicate or unique branch acts) preserves the position invariant.
`l` is the head of the previous reader. -/
theorem posInv_push_line {α : Type} (s : ChunkProcessor α) (l : α × Nat)
    (rest : List (α × Nat)) (hr : s.reader = l :: rest) (h : PosInv s)
    (u : ChunkProcessor α)
    (hu1 : u.anomalies = s.anomalies)
    (hu2 : u.current_anomaly = s.current_anomaly)
    (hu3 : u.buffer = s.buffer ++ [(l, u.coord)])
    (hu4 : u.reader = rest) : PosInv u := by
  have hlrd : l ∈ s.reader := by rw [hr]; exact List.mem_cons_self _ _
  have hrest : ∀ r ∈ rest, l.2 < r.2 := by
    have := h.rdsort
    rw [hr] at this
    exact (List.pairwise_cons.mp this).1
  refine ⟨?_, ?_, ?_, ?_, ?_, ?_, ?_, ?_, ?_⟩
  · rw [hu1]; exact h.queue
  · rw [hu1, hu2]; exact h.qcur
  · rw [hu1, hu3]
    intro a ha e he
    rcases List.mem_append.mp he with he | he
    · exact h.qbuf a ha e he
    · rw [List.mem_singleton.mp he]
      exact h.qrd a ha l hlrd
  · rw [hu2, hu3]
    intro cu hcu e he
    rcases List.mem_append.mp he with he | he
    · exact h.cbuf cu hcu e he
    · rw [List.mem_singleton.mp he]
      exact h.crd cu hcu l hlrd
  · rw [hu1, hu4]
    intro a ha r hrr
    exact h.qrd a ha r (by rw [hr]; exact List.mem_cons_of_mem _ hrr)
  · rw [hu2, hu4]
    intro cu hcu r hrr
    exact h.crd cu hcu r (by rw [hr]; exact List.mem_cons_of_mem _ hrr)
  · rw [hu3, List.pairwise_append]
    refine ⟨h.bufsort, List.pairwise_singleton _ _, ?_⟩
    intro x hx y hy
    rw [List.mem_singleton.mp hy]
    exact h.bufrd x hx l hlrd
  · rw [hu3, hu4]
    intro e he r hrr
    rcases List.mem_append.mp he with he | he
    · exact h.bufrd e he r (by rw [hr]; exact List.mem_cons_of_mem _ hrr)
    · rw [List.mem_singleton.mp he]
      exact hrest r hrr
  · rw [hu4]
    have := h.rdsort
    rw [hr] at this
    exact (List.pairwise_cons.mp this).2

theorem stepLine_posInv {α : Type} (P : Params α) (l : α × Nat)
    (rest : List (α × Nat)) (s : ChunkProcessor α)
    (hr : s.reader = l :: rest) (h : PosInv s) :
    PosInv (ChunkProcessor.stepLine P l { s with reader := rest }).state := by
  unfold ChunkProcessor.stepLine
  dsimp only
  have hpush : ∀ u : ChunkProcessor α,
      u.anomalies = s.anomalies → u.current_anomaly = s.current_anomaly →
      u.buffer = s.buffer ++ [(l, u.coord)] → u.reader = rest → PosInv u :=
    fun u h1 h2 h3 h4 => posInv_push_line s l rest hr h u h1 h2 h3 h4
  split
  · -- marker break: buffer untouched, reader already advanced
    refine ⟨h.queue, h.qcur, h.qbuf, h.cbuf, ?_, ?_, h.bufsort, ?_, ?_⟩
    · intro a ha r hrr
      exact h.qrd a ha r (by rw [hr]; exact List.mem_cons_of_mem _ hrr)
    · intro cu hcu r hrr
      exact h.crd cu hcu r (by rw [hr]; exact List.mem_cons_of_mem _ hrr)
    · intro e he r hrr
      exact h.bufrd e he r (by rw [hr]; exact List.mem_cons_of_mem _ hrr)
    · have := h.rdsort
      rw [hr] at this
      exact (List.pairwise_cons.mp this).2
  · split
    · split
      · split <;> exact do_search_posInv P _ (hpush _ rfl rfl rfl rfl)
      · exact hpush _ rfl rfl rfl rfl
    · split
      · split <;> exact do_search_posInv P _ (hpush _ rfl rfl rfl rfl)
      · exact hpush _ rfl rfl rfl rfl

theorem read_eof_posInv {α : Type} (P : Params α) (s : ChunkProcessor α)
    (h : PosInv s) : PosInv (ChunkProcessor.read_eof P s) := by
  unfold ChunkProcessor.read_eof
  dsimp only
  have h1 : PosInv (if s.targets.isEmpty then s else s.do_search_anomalies P) := by
    split
    · exact h
    · exact do_search_posInv P s h
  split
  · rename_i a heq
    refine ⟨?_, ?_, ?_, ?_, ?_, ?_, h1.bufsort, h1.bufrd, h1.rdsort⟩
    · rw [List.pairwise_append]
      refine ⟨h1.queue, List.pairwise_singleton _ _, ?_⟩
      intro x hx y hy
      rw [List.mem_singleton.mp hy]
      exact h1.qcur x hx a heq
    · intro x _ cu hcu
      exact Option.noConfusion hcu
    · intro x hx e he
      rcases List.mem_append.mp hx with hx | hx
      · exact h1.qbuf x hx e he
      · rw [List.mem_singleton.mp hx]
        exact h1.cbuf a heq e he
    · intro cu hcu
      exact Option.noConfusion hcu
    · intro x hx r hrr
      rcases List.mem_append.mp hx with hx | hx
      · exact h1.qrd x hx r hrr
      · rw [List.mem_singleton.mp hx]
        exact h1.crd a heq r hrr
    · intro cu hcu
      exact Option.noConfusion hcu
  · exact h1

/-- `stepLine` never touches the reader. -/
theorem stepLine_reader {α : Type} (P : Params α) (l : α × Nat)
    (s : ChunkProcessor α) :
    (ChunkProcessor.stepLine P l s).state.reader = s.reader := by
  unfold ChunkProcessor.stepLine
  dsimp only
  split
  · rfl
  · split
    · split
      · split <;> exact ChunkProcessor.do_search_reader P _
      · rfl
    · split
      · split <;> exact ChunkProcessor.do_search_reader P _
      · rfl

theorem read_loop_posInv {α : Type} (P : Params α) :
    ∀ (ls : List (α × Nat)) (s : ChunkProcessor α),
      s.reader = ls → PosInv s → PosInv (ChunkProcessor.read_loop P ls s)
  | [], s => fun _ h => read_eof_posInv P s h
  | l :: rest, s => fun hr h => by
    rw [ChunkProcessor.read_loop]
    have hs := stepLine_posInv P l rest s hr h
    have hrd : (ChunkProcessor.stepLine P l { s with reader := rest }).state.reader =
        rest := stepLine_reader P l _
    split
    · rename_i s' heq
      refine read_loop_posInv P rest s' ?_ ?_
      · rw [heq] at hrd
        exact hrd
      · rw [heq] at hs
        exact hs
    · rename_i s' heq
      refine read_eof_posInv P s' ?_
      rw [heq] at hs
      exact hs
    · rename_i s' heq
      rw [heq] at hs
      exact hs

theorem read_anomalies_posInv {α : Type} (P : Params α) (s : ChunkProcessor α)
    (h : PosInv s) : PosInv (ChunkProcessor.read_anomalies P s) :=
  read_loop_posInv P s.reader s rfl h

theorem do_search_posLB {α : Type} (P : Params α) (s : ChunkProcessor α) (p : Nat)
    (h : PosLB p s) : PosLB p (s.do_search_anomalies P) := by
  have hpp := do_search_pred P s (fun an => p < an.pos) h.queue h.cur
    (fun dc hdc hT b ln hmem => h.buf ((b, ln), dc.2) hmem)
  refine ⟨hpp.1, hpp.2, ?_, ?_⟩
  · intro e he
    rw [ChunkProcessor.do_search_buffer] at he
    exact absurd he (List.not_mem_nil e)
  · intro r hr
    rw [ChunkProcessor.do_search_reader] at hr
    exact h.rd r hr

theorem posLB_push_line {α : Type} (s : ChunkProcessor α) (p : Nat) (l : α × Nat)
    (rest : List (α × Nat)) (hr : s.reader = l :: rest) (h : PosLB p s)
    (u : ChunkProcessor α)
    (hu1 : u.anomalies = s.anomalies)
    (hu2 : u.current_anomaly = s.current_anomaly)
    (hu3 : u.buffer = s.buffer ++ [(l, u.coord)])
    (hu4 : u.reader = rest) : PosLB p u := by
  refine ⟨?_, ?_, ?_, ?_⟩
  · rw [hu1]; exact h.queue
  · rw [hu2]; exact h.cur
  · rw [hu3]
    intro e he
    rcases List.mem_append.mp he with he | he
    · exact h.buf e he
    · rw [List.mem_singleton.mp he]
      exact h.rd l (by rw [hr]; exact List.mem_cons_self _ _)
  · rw [hu4]
    intro r hrr
    exact h.rd r (by rw [hr]; exact List.mem_cons_of_mem _ hrr)

theorem stepLine_posLB {α : Type} (P : Params α) (p : Nat) (l : α × Nat)
    (rest : List (α × Nat)) (s : ChunkProcessor α)
    (hr : s.reader = l :: rest) (h : PosLB p s) :
    PosLB p (ChunkProcessor.stepLine P l { s with reader := rest }).state := by
  unfold ChunkProcessor.stepLine
  dsimp only
  have hpush : ∀ u : ChunkProcessor α,
      u.anomalies = s.anomalies → u.current_anomaly = s.current_anomaly →
      u.buffer = s.buffer ++ [(l, u.coord)] → u.reader = rest → PosLB p u :=
    fun u h1 h2 h3 h4 => posLB_push_line s p l rest hr h u h1 h2 h3 h4
  split
  · refine ⟨h.queue, h.cur, h.buf, ?_⟩
    intro r hrr
    exact h.rd r (by rw [hr]; exact List.mem_cons_of_mem _ hrr)
  · split
    · split
      · split <;> exact do_search_posLB P _ p (hpush _ rfl rfl rfl rfl)
      · exact hpush _ rfl rfl rfl rfl
    · split
      · split <;> exact do_search_posLB P _ p (hpush _ rfl rfl rfl rfl)
      · exact hpush _ rfl rfl rfl rfl

theorem read_eof_posLB {α : Type} (P : Params α) (s : ChunkProcessor α) (p : Nat)
    (h : PosLB p s) : PosLB p (ChunkProcessor.read_eof P s) := by
  unfold ChunkProcessor.read_eof
  dsimp only
  have h1 : PosLB p (if s.targets.isEmpty then s else s.do_search_anomalies P) := by
    split
    · exact h
    · exact do_search_posLB P s p h
  split
  · rename_i a heq
    refine ⟨?_, ?_, h1.buf, h1.rd⟩
    · intro x hx
      rcases List.mem_append.mp hx with hx | hx
      · exact h1.queue x hx
      · rw [List.mem_singleton.mp hx]
        exact h1.cur a heq
    · intro cu hcu
      exact Option.noConfusion hcu
  · exact h1

theorem read_loop_posLB {α : Type} (P : Params α) (p : Nat) :
    ∀ (ls : List (α × Nat)) (s : ChunkProcessor α),
      s.reader = ls → PosLB p s → PosLB p (ChunkProcessor.read_loop P ls s)
  | [], s => fun _ h => read_eof_posLB P s p h
  | l :: rest, s => fun hr h => by
    rw [ChunkProcessor.read_loop]
    have hs := stepLine_posLB P p l rest s hr h
    have hrd : (ChunkProcessor.stepLine P l { s with reader := rest }).state.reader =
        rest := stepLine_reader P l _
    split
    · rename_i s' heq
      refine read_loop_posLB P p rest s' ?_ ?_
      · rw [heq] at hrd
        exact hrd
      · rw [heq] at hs
        exact hs
    · rename_i s' heq
      refine read_eof_posLB P s' p ?_
      rw [heq] at hs
      exact hs
    · rename_i s' heq
      rw [heq] at hs
      exact hs

theorem read_anomalies_posLB {α : Type} (P : Params α) (s : ChunkProcessor α)
    (p : Nat) (h : PosLB p s) : PosLB p (ChunkProcessor.read_anomalies P s) :=
  read_loop_posLB P p s.reader s rfl h

theorem posInv_pop {α : Type} (s : ChunkProcessor α) (a0 : AnomalyContext α)
    (rest : List (AnomalyContext α)) (hq : s.anomalies = a0 :: rest)
    (h : PosInv s) : PosInv { s with anomalies := rest } := by
  have htail : ∀ x ∈ rest, x ∈ s.anomalies := by
    intro x hx
    rw [hq]
    exact List.mem_cons_of_mem _ hx
  refine ⟨?_, ?_, ?_, h.cbuf, ?_, h.crd, h.bufsort, h.bufrd, h.rdsort⟩
  · have := h.queue
    rw [hq] at this
    exact (List.pairwise_cons.mp this).2
  · intro x hx cu hcu
    exact h.qcur x (htail x hx) cu hcu
  · intro x hx e he
    exact h.qbuf x (htail x hx) e he
  · intro x hx r hr
    exact h.qrd x (htail x hx) r hr

theorem posLB_pop {α : Type} (s : ChunkProcessor α) (p : Nat)
    (rest : List (AnomalyContext α))
    (hsub : ∀ x ∈ rest, x ∈ s.anomalies) (h : PosLB p s) :
    PosLB p { s with anomalies := rest } :=
  ⟨fun x hx => h.queue x (hsub x hx), h.cur, h.buf, h.rd⟩

/-- Popping the next emitted anomaly from an ordered state leaves an
ordered state in which the emitted position is a strict lower bound. -/
theorem nextFull_some_posInv {α : Type} (P : Params α) (s s' : ChunkProcessor α)
    (a : AnomalyContext α) (h : PosInv s)
    (he : ChunkProcessor.nextFull P s = (some a, s')) :
    PosInv s' ∧ PosLB a.anomaly.pos s' := by
  cases hq : s.anomalies with
  | cons a0 rest =>
    rw [nextFull_cons P s a0 rest hq] at he
    injection he with he1 he2
    injection he1 with he1
    rw [← he1, ← he2]
    have hqp := h.queue
    rw [hq] at hqp
    have hhead := List.pairwise_cons.mp hqp
    refine ⟨posInv_pop s a0 rest hq h, ?_, ?_, ?_, ?_⟩
    · intro x hx
      exact hhead.1 x hx
    · intro cu hcu
      exact h.qcur a0 (by rw [hq]; exact List.mem_cons_self _ _) cu hcu
    · intro e hee
      exact h.qbuf a0 (by rw [hq]; exact List.mem_cons_self _ _) e hee
    · intro r hr
      exact h.qrd a0 (by rw [hq]; exact List.mem_cons_self _ _) r hr
  | nil =>
    have hread : PosInv (ChunkProcessor.read_anomalies P s) :=
      read_anomalies_posInv P s h
    cases hq2 : (ChunkProcessor.read_anomalies P s).anomalies with
    | nil =>
      rw [nextFull_read_nil P s hq hq2] at he
      simp at he
    | cons a0 rest =>
      rw [nextFull_read_cons P s a0 rest hq hq2] at he
      injection he with he1 he2
      injection he1 with he1
      rw [← he1, ← he2]
      have hhead := List.pairwise_cons.mp (hq2 ▸ hread.queue)
      refine ⟨posInv_pop _ a0 rest hq2 hread, ?_, ?_, ?_, ?_⟩
      · intro x hx
        exact hhead.1 x hx
      · intro cu hcu
        exact hread.qcur a0 (by rw [hq2]; exact List.mem_cons_self _ _) cu hcu
      · intro e hee
        exact hread.qbuf a0 (by rw [hq2]; exact List.mem_cons_self _ _) e hee
      · intro r hr
        exact hread.qrd a0 (by rw [hq2]; exact List.mem_cons_self _ _) r hr

/-- A strict lower bound on a state bounds everything it ever emits. -/
theorem emitN_posLB {α : Type} (P : Params α) :
    ∀ (n : Nat) (s : ChunkProcessor α) (p : Nat), PosLB p s →
      ∀ b ∈ ChunkProcessor.emitN P n s, p < b.anomaly.pos
  | 0, s, p, _, b, hb => absurd hb (List.not_mem_nil b)
  | n + 1, s, p, h, b, hb => by
    rw [ChunkProcessor.emitN] at hb
    cases hq : s.anomalies with
    | cons a0 rest =>
      rw [nextFull_cons P s a0 rest hq] at hb
      rcases List.mem_cons.mp hb with hb | hb
      · rw [hb]
        exact h.queue a0 (by rw [hq]; exact List.mem_cons_self _ _)
      · exact emitN_posLB P n _ p
          (posLB_pop s p rest
            (fun x hx => by rw [hq]; exact List.mem_cons_of_mem _ hx) h) b hb
    | nil =>
      have hread : PosLB p (ChunkProcessor.read_anomalies P s) :=
        read_anomalies_posLB P s p h
      cases hq2 : (ChunkProcessor.read_anomalies P s).anomalies with
      | nil =>
        rw [nextFull_read_nil P s hq hq2] at hb
        exact absurd hb (List.not_mem_nil b)
      | cons a0 rest =>
        rw [nextFull_read_cons P s a0 rest hq hq2] at hb
        rcases List.mem_cons.mp hb with hb | hb
        · rw [hb]
          exact hread.queue a0 (by rw [hq2]; exact List.mem_cons_self _ _)
        · exact emitN_posLB P n _ p
            (posLB_pop _ p rest
              (fun x hx => by rw [hq2]; exact List.mem_cons_of_mem _ hx) hread) b hb

/-- Emissions from an ordered state are pairwise strictly increasing in
position. -/
theorem emitN_pairwise_pos {α : Type} (P : Params α) :
    ∀ (n : Nat) (s : ChunkProcessor α), PosInv s →
      List.Pairwise (fun a b : AnomalyContext α =>
        a.anomaly.pos < b.anomaly.pos) (ChunkProcessor.emitN P n s)
  | 0, s, _ => List.Pairwise.nil
  | n + 1, s, h => by
    rw [ChunkProcessor.emitN]
    cases hnf : ChunkProcessor.nextFull P s with
    | mk o s' =>
      cases o with
      | none => exact List.Pairwise.nil
      | some a =>
        have hs' := nextFull_some_posInv P s s' a h hnf
        refine List.Pairwise.cons ?_ (emitN_pairwise_pos P n s' hs'.1)
        intro b hb
        exact emitN_posLB P n s' a.anomaly.pos hs'.2 b hb

/-! ## C2: anomalies are emitted in strictly increasing pos order -/
/-- **C2**: for every target stream whose framing produces strictly
increasing line numbers, the `ChunkProcessor` iterator emits anomalies
in strictly increasing `pos` order: any two consecutively emitted
`AnomalyContext` values `A` then `B` satisfy
`A.anomaly.pos < B.anomaly.pos` (indeed the whole emission sequence is
pairwise increasing). -/
theorem C2_pos_monotone {α : Type} (P : Params α) (reader : List (α × Nat))
    (job : Bool) (skip0 : List String) (n : Nat)
    (hln : List.Pairwise (fun x y : α × Nat => x.2 < y.2) reader) :
    List.Chain' (fun a b : AnomalyContext α => a.anomaly.pos < b.anomaly.pos)
      (ChunkProcessor.emitN P n (ChunkProcessor.new reader job skip0)) := by
  have hinv : PosInv (ChunkProcessor.new reader job skip0) := by
    refine ⟨List.Pairwise.nil, ?_, ?_, ?_, ?_, ?_, List.Pairwise.nil, ?_, hln⟩
    · intro a ha
      exact absurd ha (List.not_mem_nil a)
    · intro a ha
      exact absurd ha (List.not_mem_nil a)
    · intro cu hcu
      exact Option.noConfusion hcu
    · intro a ha
      exact absurd ha (List.not_mem_nil a)
    · intro cu hcu
      exact Option.noConfusion hcu
    · intro e he
      exact absurd he (List.not_mem_nil e)
  exact (emitN_pairwise_pos P n _ hinv).chain'

/-- Witness for C2 at the two-line run of `dataC3`. -/
theorem C2_pos_monotone_witness :
    List.Pairwise (fun x y : String × Nat => x.2 < y.2) dataC3 ∧
      List.Chain' (fun a b : AnomalyContext String =>
          a.anomaly.pos < b.anomaly.pos)
        (ChunkProcessor.emitN PC3 2 (ChunkProcessor.new dataC3 false [])) :=
  ⟨by decide, C2_pos_monotone PC3 dataC3 false [] 2 (by decide)⟩

/-! ## C10: end-of-stream is absorbing -/
/-- **C10**: once `next` returns `None` with the reader exhausted, the
state is left with empty targets, no open anomaly, and an empty anomaly
queue, and every subsequent call returns `None` again without changing
the state. -/
theorem C10_eos_absorbing {α : Type} (P : Params α) (s s' : ChunkProcessor α)
    (hr : s.reader = []) (hs : ChunkProcessor.nextFull P s = (none, s')) :
    s'.targets = [] ∧ s'.current_anomaly = none ∧ s'.anomalies = [] ∧
      s'.reader = [] ∧ ChunkProcessor.nextFull P s' = (none, s') := by
  have hA : s.anomalies = [] := by
    cases hA : s.anomalies with
    | nil => rfl
    | cons a rest => simp [ChunkProcessor.nextFull, hA] at hs
  have hre : ChunkProcessor.read_anomalies P s = ChunkProcessor.read_eof P s := by
    simp [ChunkProcessor.read_anomalies, hr, ChunkProcessor.read_loop]
  have h2 : (ChunkProcessor.read_eof P s).anomalies = [] ∧
      s' = ChunkProcessor.read_eof P s := by
    cases h2 : (ChunkProcessor.read_anomalies P s).anomalies with
    | nil =>
      rw [hre] at h2
      simp [ChunkProcessor.nextFull, hA, hre, h2] at hs
      exact ⟨h2, hs.symm⟩
    | cons a rest => simp [ChunkProcessor.nextFull, hA, h2] at hs
  obtain ⟨hanil, hs'⟩ := h2
  -- analyse read_eof
  have key : s'.targets = [] ∧ s'.current_anomaly = none ∧ s'.anomalies = [] ∧
      s'.reader = [] := by
    cases hT : s.targets with
    | nil =>
      cases hC : s.current_anomaly with
      | some a =>
        rw [ChunkProcessor.read_eof, hT] at hanil
        simp [hC] at hanil
      | none =>
        have : ChunkProcessor.read_eof P s = s := by
          rw [ChunkProcessor.read_eof, hT]
          simp [hC]
        rw [hs', this]
        exact ⟨hT, hC, hA, hr⟩
    | cons t ts =>
      have hne : s.targets.isEmpty = false := by rw [hT]; rfl
      cases hC : (s.do_search_anomalies P).current_anomaly with
      | some a =>
        rw [ChunkProcessor.read_eof, hne] at hanil
        simp [hC] at hanil
      | none =>
        have : ChunkProcessor.read_eof P s = s.do_search_anomalies P := by
          rw [ChunkProcessor.read_eof, hne]
          simp [hC]
        rw [hs', this]
        rw [this] at hanil
        exact ⟨ChunkProcessor.do_search_targets P s, hC, hanil,
          (ChunkProcessor.do_search_reader P s).trans hr⟩
  obtain ⟨k1, k2, k3, k4⟩ := key
  refine ⟨k1, k2, k3, k4, ?_⟩
  have heof : ChunkProcessor.read_eof P s' = s' := by
    rw [ChunkProcessor.read_eof, k1]
    simp [k2]
  simp [ChunkProcessor.nextFull, k3, ChunkProcessor.read_anomalies, k4,
    ChunkProcessor.read_loop, heof]

/-- Witness for C10 at the empty stream. -/
theorem C10_eos_absorbing_witness :
    (ChunkProcessor.new ([] : List (String × Nat)) false []).targets = [] ∧
      (ChunkProcessor.new ([] : List (String × Nat)) false []).current_anomaly = none ∧
      (ChunkProcessor.new ([] : List (String × Nat)) false []).anomalies = [] ∧
      (ChunkProcessor.new ([] : List (String × Nat)) false []).reader = [] ∧
      ChunkProcessor.nextFull PTriv (ChunkProcessor.new [] false []) =
        (none, ChunkProcessor.new [] false []) :=
  C10_eos_absorbing PTriv (ChunkProcessor.new [] false [])
    (ChunkProcessor.new [] false []) rfl (by decide)

end Logjuicer
